import Mathlib

/-!
# Key-value store (`kv_store.c`): `deserialize`, `lookup`, `delete`

A shallow embedding of the three functions of `src/kv_store.c` and the
properties of the specification that concern them.

Modelling conventions.

* A `char` of the buffer is a `Byte` (`Fin 256`).
* A `KVPAIR *` is a `List KVPAIR`: `NULL` is `[]`, a non-null pointer is the
  node it points to followed by the chain reached through `next`.
* `buf` is the memory the pointer designates and `buffer_size` the second
  argument of `deserialize`; the buffer is the first `buffer_size` bytes of
  `buf`, and `buf` may continue after it.  The source reads without any
  bounds check: a read past the buffer that stays inside `buf` simply
  yields the bytes found there.  Only reading outside `buf` itself, and
  writing outside an allocated block, which are undefined behaviour in C,
  are reported as faults.  The end pointer `buf + buffer_size` is taken to
  be representable (no wrap-around).
* `long` is 64 bits wide and `unsigned int` 32 bits wide (LP64), as the
  8 + 4 byte header of the wire format assumes.  `memcpy` into an integer
  uses the byte order of the machine, a parameter `ByteOrder`.
* `malloc` is an oracle: `malloc i` tells whether the `i`-th call (counted
  from 0) returns a non-null block.
* The `while` loop is a recursion on an iteration bound; `deserialize` runs
  it with `buffer_size + 1`, which `deserializeRun_ne_fuelExhausted` shows
  is never reached.
-/

namespace KVStore

/-- One `char` of a buffer. -/
abbrev Byte := Fin 256

/-- Byte order of the machine that runs `memcpy` into an integer field. -/
inductive ByteOrder
  | little
  | big
  deriving DecidableEq

/-- The struct `KVPAIR` without its `next` field (the chain is the list the
node sits in): `key` is a `long`, `size` an `unsigned int`, `val` the
contents of the block `val` points to. -/
structure KVPAIR where
  key : Int
  size : Nat
  val : List Byte
  deriving DecidableEq

/-! ## Integers in memory -/

/-- Value of a little-endian byte string. -/
def loadLE : List Byte → Nat
  | [] => 0
  | b :: bs => b.val + 256 * loadLE bs

/-- Unsigned value that `memcpy` of `bs` into an integer object produces. -/
def load (bo : ByteOrder) (bs : List Byte) : Nat :=
  match bo with
  | .little => loadLE bs
  | .big => loadLE bs.reverse

/-- Two's complement reading of a 64-bit pattern as a `long`. -/
def toLong (u : Nat) : Int :=
  if u < 2 ^ 63 then (u : Int) else (u : Int) - 2 ^ 64

/-- The `len` bytes at offset `off` of the memory object `buf`, or `none`
when the range leaves the object. -/
def memRead (buf : List Byte) (off len : Nat) : Option (List Byte) :=
  if off + len ≤ buf.length then some ((buf.drop off).take len) else none

/-! ## `deserialize` -/

/-- Observable steps of a run of `deserialize`. -/
inductive Event
  /-- the loop condition `ptr < buf + buffer_size` is evaluated at cursor `ptr` -/
  | test (ptr : Nat)
  /-- a `memcpy` reads `len` bytes of `buf` from offset `off` -/
  | read (off len : Nat)
  /-- `malloc (size + 1)` is called with this argument -/
  | alloc (request : Nat)
  deriving DecidableEq

/-- Ways in which a run of `deserialize` does not return a list. -/
inductive Fault
  /-- a `malloc` returned `NULL` and the function returned `NULL`; `leaked`
  are the nodes linked so far, which the function does not free -/
  | allocationFailure (leaked : List KVPAIR)
  /-- a `memcpy` read `len` bytes at offset `off`, outside `buf` -/
  | readOutOfBounds (off len : Nat)
  /-- `needed` bytes were written into a block of `allocated` bytes -/
  | writeOutOfBounds (allocated needed : Nat)
  /-- the iteration bound of the model was reached -/
  | fuelExhausted
  deriving DecidableEq

/-- Local variables of `deserialize` at the loop head: the cursor
`ptr - buf`, the list from `start` to `current`, the number of `malloc`
calls made, and the events so far. -/
structure LoopState where
  ptr : Nat
  start : List KVPAIR
  mallocs : Nat
  trace : List Event
  deriving DecidableEq

/-- Argument of the `malloc` for the value: `new_node->size + 1`, computed
in `unsigned int`. -/
def valRequest (size : Nat) : Nat := (size + 1) % 2 ^ 32

/-- One execution of the loop body (source lines 43 to 78). -/
def loopBody (malloc : Nat → Bool) (bo : ByteOrder) (buf : List Byte)
    (s : LoopState) : Except Fault LoopState :=
  if malloc s.mallocs then
    match memRead buf s.ptr 8 with
    | none => .error (.readOutOfBounds s.ptr 8)
    | some keyBytes =>
      match memRead buf (s.ptr + 8) 4 with
      | none => .error (.readOutOfBounds (s.ptr + 8) 4)
      | some sizeBytes =>
        let size := load bo sizeBytes
        if malloc (s.mallocs + 1) then
          match memRead buf (s.ptr + 12) size with
          | none => .error (.readOutOfBounds (s.ptr + 12) size)
          | some payload =>
            if size + 1 ≤ valRequest size then
              .ok { ptr := s.ptr + 12 + size
                    start := s.start ++ [⟨toLong (load bo keyBytes), size, payload ++ [0]⟩]
                    mallocs := s.mallocs + 2
                    trace := s.trace ++ [.read s.ptr 8, .read (s.ptr + 8) 4,
                      .alloc (valRequest size), .read (s.ptr + 12) size] }
            else .error (.writeOutOfBounds (valRequest size) (size + 1))
        else .error (.allocationFailure s.start)
  else .error (.allocationFailure s.start)

/-- The `while` loop of `deserialize`, with an iteration bound `fuel`. -/
def deserializeLoop (malloc : Nat → Bool) (bo : ByteOrder) (buf : List Byte)
    (buffer_size : Nat) : Nat → LoopState → Except Fault LoopState
  | 0, _ => .error .fuelExhausted
  | fuel + 1, s =>
    if s.ptr < buffer_size then
      match loopBody malloc bo buf { s with trace := s.trace ++ [.test s.ptr] } with
      | .error e => .error e
      | .ok s1 => deserializeLoop malloc bo buf buffer_size fuel s1
    else .ok { s with trace := s.trace ++ [.test s.ptr] }

/-- The run of `deserialize` from its initial state; every iteration
consumes at least 12 bytes, so `buffer_size + 1` bounds the number of loop
tests. -/
def deserializeRun (malloc : Nat → Bool) (bo : ByteOrder) (buf : List Byte)
    (buffer_size : Nat) : Except Fault LoopState :=
  deserializeLoop malloc bo buf buffer_size (buffer_size + 1) ⟨0, [], 0, []⟩

/-- The function `deserialize`: the list it returns, or the fault. -/
def deserialize (malloc : Nat → Bool) (bo : ByteOrder) (buf : List Byte)
    (buffer_size : Nat) : Except Fault (List KVPAIR) :=
  match deserializeRun malloc bo buf buffer_size with
  | .error e => .error e
  | .ok s => .ok s.start

/-- An allocator that never fails. -/
def mallocOk : Nat → Bool := fun _ => true

/-! ## `lookup` and `delete` -/

/-- The function `lookup`: the pointer to the first node with the key (the
node and the chain after it), or `[]` for `NULL`. -/
def lookup : List KVPAIR → Int → List KVPAIR
  | [], _ => []
  | n :: next, key => if n.key = key then n :: next else lookup next key

/-- The function `delete`: its return value and the list `*list` designates
afterwards.  Unlinking the first node stores `curr->next` in `*list`,
unlinking a later one stores it in `prev->next`; in both cases the chain
continues with the successor of the removed node. -/
def delete : List KVPAIR → Int → Int × List KVPAIR
  | [], _ => (0, [])
  | n :: next, key =>
    if n.key = key then (1, next)
    else ((delete next key).1, n :: (delete next key).2)

/-! ## Wire format of the specification -/

/-- A key with its value bytes, as handed to an encoder. -/
structure Record where
  key : Int
  value : List Byte
  deriving DecidableEq

/-- The `n` low-order bytes of `x`, least significant first. -/
def storeLE : Nat → Nat → List Byte
  | 0, _ => []
  | n + 1, x => ⟨x % 256, Nat.mod_lt _ (by decide)⟩ :: storeLE n (x / 256)

/-- The `n`-byte representation of `x` in byte order `bo`. -/
def store (bo : ByteOrder) (n x : Nat) : List Byte :=
  match bo with
  | .little => storeLE n x
  | .big => (storeLE n x).reverse

/-- Spec-side definition (section 6 of the specification): a record on the
wire is 8 key bytes, 4 size bytes and the value bytes, without padding. -/
def encodeRecord (bo : ByteOrder) (r : Record) : List Byte :=
  store bo 8 (r.key % 2 ^ 64).toNat ++ store bo 4 r.value.length ++ r.value

/-- Spec-side definition: a buffer is the concatenation of its records. -/
def wireEncode (bo : ByteOrder) : List Record → List Byte
  | [] => []
  | r :: rs => encodeRecord bo r ++ wireEncode bo rs

/-- The node `deserialize` builds for a record: the value block holds the
payload followed by the terminator. -/
def nodeOf (r : Record) : KVPAIR := ⟨r.key, r.value.length, r.value ++ [0]⟩

/-- Bytes a node accounts for on the wire. -/
def consumed (n : KVPAIR) : Nat := 8 + 4 + n.size

/-- A record whose value has the largest length the 4-byte size field can
hold, `2 ^ 32 - 1` bytes. -/
def maxRecord : Record := ⟨0, List.replicate (2 ^ 32 - 1) 0⟩

/-- The buffer of the scenario of the specification on a little-endian
machine: key 1 with value "ab", then key 2 with value "xyz". -/
def scenarioBuf : List Byte :=
  [1, 0, 0, 0, 0, 0, 0, 0, 2, 0, 0, 0, 97, 98,
   2, 0, 0, 0, 0, 0, 0, 0, 3, 0, 0, 0, 120, 121, 122]

/-- The list `deserialize` returns on `scenarioBuf`. -/
def scenarioList : List KVPAIR :=
  [⟨1, 2, [97, 98, 0]⟩, ⟨2, 3, [120, 121, 122, 0]⟩]

/-- A list in which key 5 occurs twice. -/
def duplicateList : List KVPAIR :=
  [⟨4, 1, [100, 0]⟩, ⟨5, 1, [101, 0]⟩, ⟨6, 0, [0]⟩, ⟨5, 2, [102, 103, 0]⟩, ⟨7, 0, [0]⟩]

deriving instance DecidableEq for Except

/-- Events of a complete run over the encoding of `rs` that starts with the
cursor at `p`. -/
def wireTrace : Nat → List Record → List Event
  | p, [] => [.test p]
  | p, r :: rs =>
    [.test p, .read p 8, .read (p + 8) 4, .alloc (r.value.length + 1),
      .read (p + 12) r.value.length] ++ wireTrace (p + 12 + r.value.length) rs

/-- Spec-side definition: the wire bytes of a node, 8 key bytes, 4 size bytes
and the first `size` bytes of its value block. -/
def encodeNode (bo : ByteOrder) (n : KVPAIR) : List Byte :=
  store bo 8 (n.key % 2 ^ 64).toNat ++ store bo 4 n.size ++ n.val.take n.size

/-- Spec-side definition: the re-encoding of a list, node after node. -/
def reencode (bo : ByteOrder) : List KVPAIR → List Byte
  | [] => []
  | n :: ns => encodeNode bo n ++ reencode bo ns

/-- The record a node stands for: its key and the `size` payload bytes of
its value block. -/
def recordOf (n : KVPAIR) : Record := ⟨n.key, n.val.take n.size⟩

/-- Spec-side definition (glossary, well-formed buffer): an exact
concatenation of whole records, each with a key that is a `long` and a
value whose length fits the 4-byte size field. -/
def WellFormed (bo : ByteOrder) (buf : List Byte) : Prop :=
  ∃ rs : List Record,
    (∀ r ∈ rs, -2 ^ 63 ≤ r.key ∧ r.key < 2 ^ 63 ∧ r.value.length < 2 ^ 32) ∧
    buf = wireEncode bo rs

/-- The nodes `ns` are what `buf` holds from offset `p` on: each node has
the key and size of the header at its offset, and its value block is the
payload that follows the header, then one zero byte. -/
def DecodedAt (bo : ByteOrder) (buf : List Byte) : Nat → List KVPAIR → Prop
  | _, [] => True
  | p, n :: ns =>
    p + 12 + n.size ≤ buf.length ∧
    n.key = toLong (load bo ((buf.drop p).take 8)) ∧
    n.size = load bo ((buf.drop (p + 8)).take 4) ∧
    n.val = (buf.drop (p + 12)).take n.size ++ [0] ∧
    DecodedAt bo buf (p + 12 + n.size) ns

/-- The collection `x` followed by the collection `y`; the first fault when
one of the two decodings is a fault. -/
def followedBy (x y : Except Fault (List KVPAIR)) : Except Fault (List KVPAIR) :=
  match x with
  | .error e => .error e
  | .ok L1 =>
    match y with
    | .error e => .error e
    | .ok L2 => .ok (L1 ++ L2)

/-- The buffer `scenarioBuf` cut one byte short: it ends before the three
value bytes its second record declares are available. -/
def truncatedBuf : List Byte :=
  [1, 0, 0, 0, 0, 0, 0, 0, 2, 0, 0, 0, 97, 98,
   2, 0, 0, 0, 0, 0, 0, 0, 3, 0, 0, 0, 120, 121]

/-- The first record of `scenarioBuf` as a buffer of its own. -/
def scenarioFirst : List Byte := [1, 0, 0, 0, 0, 0, 0, 0, 2, 0, 0, 0, 97, 98]

/-- The second record of `scenarioBuf` as a buffer of its own. -/
def scenarioSecond : List Byte := [2, 0, 0, 0, 0, 0, 0, 0, 3, 0, 0, 0, 120, 121, 122]

/-- A memory object that continues after a buffer: `truncatedBuf` followed
by one more readable byte.  With `buffer_size` 28 the buffer is
`truncatedBuf`. -/
def slackBuf : List Byte := truncatedBuf ++ [0]

/-- The list `deserialize` returns on `slackBuf` with `buffer_size` 28: the
value of the second node ends with the byte after the buffer. -/
def slackList : List KVPAIR :=
  [⟨1, 2, [97, 98, 0]⟩, ⟨2, 3, [120, 121, 0, 0]⟩]


/-! ## Integers in memory: lemmas -/

theorem storeLE_length (n x : Nat) : (storeLE n x).length = n := by
  induction n generalizing x with
  | zero => rfl
  | succ n ih => simp [storeLE, ih]

theorem loadLE_storeLE (n x : Nat) : loadLE (storeLE n x) = x % 256 ^ n := by
  induction n generalizing x with
  | zero => simp [storeLE, loadLE, Nat.mod_one]
  | succ n ih => simp only [storeLE, loadLE, ih, pow_succ', Nat.mod_mul]

theorem store_length (bo : ByteOrder) (n x : Nat) : (store bo n x).length = n := by
  cases bo <;> simp [store, storeLE_length]

theorem load_store (bo : ByteOrder) (n x : Nat) : load bo (store bo n x) = x % 256 ^ n := by
  cases bo <;> simp [store, load, loadLE_storeLE]

theorem toLong_store (k : Int) (hlo : -2 ^ 63 ≤ k) (hhi : k < 2 ^ 63) :
    toLong ((k % 2 ^ 64).toNat % 256 ^ 8) = k := by
  unfold toLong
  have h1 : (0 : Int) ≤ k % 2 ^ 64 := Int.emod_nonneg _ (by norm_num)
  have h2 : k % 2 ^ 64 < 2 ^ 64 := Int.emod_lt_of_pos _ (by norm_num)
  have h3 : ((k % 2 ^ 64).toNat : Int) = k % 2 ^ 64 := Int.toNat_of_nonneg h1
  have h4 : (k % 2 ^ 64).toNat < 256 ^ 8 := by
    have h5 : ((k % 2 ^ 64).toNat : Int) < ((256 ^ 8 : Nat) : Int) := by
      rw [h3]; exact lt_of_lt_of_le h2 (by norm_num)
    exact Int.ofNat_lt.mp h5
  rw [Nat.mod_eq_of_lt h4, h3]
  have h6 : ((k % 2 ^ 64).toNat < 2 ^ 63) ↔ (k % 2 ^ 64 < 2 ^ 63) := by
    rw [← h3]
    constructor
    · intro h; exact_mod_cast h
    · intro h; exact_mod_cast h
  simp only [h6]
  split <;> omega

theorem loadLE_lt (bs : List Byte) : loadLE bs < 256 ^ bs.length := by
  induction bs with
  | nil => simp [loadLE]
  | cons b bs ih =>
    have hb := b.isLt
    simp only [loadLE, List.length_cons, pow_succ]
    omega

theorem storeLE_loadLE (bs : List Byte) : storeLE bs.length (loadLE bs) = bs := by
  induction bs with
  | nil => rfl
  | cons b bs ih =>
    have hb := b.isLt
    have h1 : (b.val + 256 * loadLE bs) % 256 = b.val := by omega
    have h2 : (b.val + 256 * loadLE bs) / 256 = loadLE bs := by omega
    simp only [List.length_cons, loadLE, storeLE, h2, ih, List.cons.injEq, and_true]
    exact Fin.ext h1

theorem load_lt (bo : ByteOrder) (bs : List Byte) : load bo bs < 256 ^ bs.length := by
  cases bo
  · exact loadLE_lt bs
  · have h := loadLE_lt bs.reverse
    simpa [load] using h

theorem store_load (bo : ByteOrder) (n : Nat) (bs : List Byte) (h : bs.length = n) :
    store bo n (load bo bs) = bs := by
  subst h
  cases bo
  · exact storeLE_loadLE bs
  · have h := storeLE_loadLE bs.reverse
    simp only [List.length_reverse] at h
    simp only [store, load, h, List.reverse_reverse]

theorem toLong_range (u : Nat) (h : u < 2 ^ 64) : -2 ^ 63 ≤ toLong u ∧ toLong u < 2 ^ 63 := by
  unfold toLong
  split <;> constructor <;> omega

theorem toLong_mod (u : Nat) (h : u < 2 ^ 64) : (toLong u % 2 ^ 64).toNat = u := by
  unfold toLong
  split <;> omega

theorem memRead_of_eq {buf : List Byte} {off len : Nat} (pre bs post : List Byte)
    (h : buf = pre ++ bs ++ post) (hoff : off = pre.length) (hlen : len = bs.length) :
    memRead buf off len = some bs := by
  subst h hoff hlen
  simp [memRead]

theorem memRead_some {buf : List Byte} {off len : Nat} {bs : List Byte}
    (h : memRead buf off len = some bs) :
    off + len ≤ buf.length ∧ bs = (buf.drop off).take len := by
  unfold memRead at h
  split at h
  · exact ⟨by assumption, by injection h with h; exact h.symm⟩
  · exact absurd h (by simp)

/-! ## One loop iteration on an encoded record -/

theorem encodeRecord_length (bo : ByteOrder) (r : Record) :
    (encodeRecord bo r).length = 12 + r.value.length := by
  simp only [encodeRecord, List.length_append, store_length]

theorem valRequest_of_lt {size : Nat} (h : size < 2 ^ 32 - 1) : valRequest size = size + 1 := by
  unfold valRequest
  exact Nat.mod_eq_of_lt (by omega)

theorem valRequest_max : valRequest (2 ^ 32 - 1) = 0 := by
  decide

/-- The header reads of one iteration on `pre ++ encodeRecord bo r ++ post`
with the cursor at `pre.length`. -/
theorem header_reads (bo : ByteOrder) (pre post : List Byte) (r : Record) (p : Nat)
    (hp : p = pre.length) :
    memRead (pre ++ encodeRecord bo r ++ post) p 8 = some (store bo 8 (r.key % 2 ^ 64).toNat)
    ∧ memRead (pre ++ encodeRecord bo r ++ post) (p + 8) 4 = some (store bo 4 r.value.length)
    ∧ memRead (pre ++ encodeRecord bo r ++ post) (p + 12) r.value.length = some r.value := by
  refine ⟨?_, ?_, ?_⟩
  · exact memRead_of_eq pre _ (store bo 4 r.value.length ++ r.value ++ post)
      (by simp [encodeRecord]) hp (by simp [store_length])
  · exact memRead_of_eq (pre ++ store bo 8 (r.key % 2 ^ 64).toNat) _ (r.value ++ post)
      (by simp [encodeRecord]) (by simp [store_length, hp]) (by simp [store_length])
  · exact memRead_of_eq
      (pre ++ store bo 8 (r.key % 2 ^ 64).toNat ++ store bo 4 r.value.length) _ post
      (by simp [encodeRecord]) (by simp [store_length, hp]) rfl

theorem loopBody_encodeRecord (malloc : Nat → Bool) (bo : ByteOrder) (pre post : List Byte)
    (r : Record) (s : LoopState)
    (hm0 : malloc s.mallocs = true) (hm1 : malloc (s.mallocs + 1) = true)
    (hp : s.ptr = pre.length) (hlo : -2 ^ 63 ≤ r.key) (hhi : r.key < 2 ^ 63)
    (hsz : r.value.length < 2 ^ 32 - 1) :
    loopBody malloc bo (pre ++ encodeRecord bo r ++ post) s =
      .ok { ptr := s.ptr + 12 + r.value.length
            start := s.start ++ [nodeOf r]
            mallocs := s.mallocs + 2
            trace := s.trace ++ [.read s.ptr 8, .read (s.ptr + 8) 4,
              .alloc (r.value.length + 1), .read (s.ptr + 12) r.value.length] } := by
  obtain ⟨h8, h4, hv⟩ := header_reads bo pre post r s.ptr hp
  have hsize : load bo (store bo 4 r.value.length) = r.value.length := by
    rw [load_store]; exact Nat.mod_eq_of_lt (by norm_num; omega)
  have hkey : toLong (load bo (store bo 8 (r.key % 2 ^ 64).toNat)) = r.key := by
    rw [load_store]; exact toLong_store r.key hlo hhi
  unfold loopBody
  simp only [hm0, hm1, h8, h4, hsize, hv, hkey, valRequest_of_lt hsz, if_true, le_refl, nodeOf]

/-- At a record whose value has `2 ^ 32 - 1` bytes the request `size + 1`
wraps to 0 and the copy leaves the allocated block. -/
theorem loopBody_encodeRecord_max (malloc : Nat → Bool) (bo : ByteOrder) (pre post : List Byte)
    (r : Record) (s : LoopState)
    (hm0 : malloc s.mallocs = true) (hm1 : malloc (s.mallocs + 1) = true)
    (hp : s.ptr = pre.length) (hsz : r.value.length = 2 ^ 32 - 1) :
    loopBody malloc bo (pre ++ encodeRecord bo r ++ post) s =
      .error (.writeOutOfBounds 0 (2 ^ 32)) := by
  obtain ⟨h8, h4, hv⟩ := header_reads bo pre post r s.ptr hp
  have hsize : load bo (store bo 4 r.value.length) = 2 ^ 32 - 1 := by
    rw [load_store, hsz]; decide
  rw [hsz] at hv
  unfold loopBody
  simp only [hm0, hm1, h8, h4, hsize, hv, valRequest_max, if_true]
  rw [if_neg (by decide)]
  rfl

/-! ## The loop on a well-formed buffer -/

theorem wireEncode_cons (bo : ByteOrder) (r : Record) (rs : List Record) :
    wireEncode bo (r :: rs) = encodeRecord bo r ++ wireEncode bo rs := rfl

theorem deserializeLoop_wireEncode (malloc : Nat → Bool) (bo : ByteOrder)
    (hm : ∀ i, malloc i = true) (rs : List Record) :
    ∀ (pre : List Byte) (fuel : Nat) (s : LoopState), s.ptr = pre.length → rs.length < fuel →
      (∀ r ∈ rs, -2 ^ 63 ≤ r.key ∧ r.key < 2 ^ 63 ∧ r.value.length < 2 ^ 32 - 1) →
      deserializeLoop malloc bo (pre ++ wireEncode bo rs) (pre ++ wireEncode bo rs).length fuel s
        = .ok { ptr := (pre ++ wireEncode bo rs).length
                start := s.start ++ rs.map nodeOf
                mallocs := s.mallocs + 2 * rs.length
                trace := s.trace ++ wireTrace s.ptr rs } := by
  induction rs with
  | nil =>
    intro pre fuel s hp hf _
    obtain ⟨f, rfl⟩ : ∃ f, fuel = f + 1 := ⟨fuel - 1, by simp at hf; omega⟩
    obtain ⟨ptr, start, mallocs, trace⟩ := s
    simp only at hp
    subst hp
    simp [deserializeLoop, wireEncode, wireTrace]
  | cons r rs ih =>
    intro pre fuel s hp hf hv
    obtain ⟨f, rfl⟩ : ∃ f, fuel = f + 1 := ⟨fuel - 1, by simp at hf; omega⟩
    obtain ⟨hlo, hhi, hsz⟩ := hv r (List.mem_cons_self _ _)
    have hlt : s.ptr < (pre ++ wireEncode bo (r :: rs)).length := by
      simp only [wireEncode_cons, List.length_append, encodeRecord_length]
      omega
    have hbody := loopBody_encodeRecord malloc bo pre (wireEncode bo rs) r
      { s with trace := s.trace ++ [.test s.ptr] } (hm _) (hm _) hp hlo hhi hsz
    have hbuf : pre ++ wireEncode bo (r :: rs) = pre ++ encodeRecord bo r ++ wireEncode bo rs := by
      simp [wireEncode_cons]
    have hrec := ih (pre ++ encodeRecord bo r) f
      { ptr := s.ptr + 12 + r.value.length
        start := s.start ++ [nodeOf r]
        mallocs := s.mallocs + 2
        trace := s.trace ++ [.test s.ptr] ++ [.read s.ptr 8, .read (s.ptr + 8) 4,
          .alloc (r.value.length + 1), .read (s.ptr + 12) r.value.length] }
      (by simp only [List.length_append, encodeRecord_length, hp]; omega)
      (by simp at hf; omega)
      (fun x hx => hv x (List.mem_cons_of_mem _ hx))
    rw [deserializeLoop, if_pos hlt, hbuf, hbody]
    simp only
    rw [hrec]
    simp [wireTrace, Nat.mul_add, Nat.add_assoc, Nat.add_comm]

theorem wireEncode_length (bo : ByteOrder) (rs : List Record) :
    (wireEncode bo rs).length = ((rs.map nodeOf).map consumed).sum := by
  induction rs with
  | nil => rfl
  | cons r rs ih =>
    simp only [wireEncode_cons, List.length_append, encodeRecord_length, ih, List.map_cons,
      List.sum_cons, consumed, nodeOf]

theorem length_le_wireEncode_length (bo : ByteOrder) (rs : List Record) :
    rs.length ≤ (wireEncode bo rs).length := by
  induction rs with
  | nil => simp
  | cons r rs ih =>
    simp only [wireEncode_cons, List.length_append, encodeRecord_length, List.length_cons]
    omega

theorem deserializeRun_wireEncode (malloc : Nat → Bool) (bo : ByteOrder)
    (hm : ∀ i, malloc i = true) (rs : List Record)
    (hv : ∀ r ∈ rs, -2 ^ 63 ≤ r.key ∧ r.key < 2 ^ 63 ∧ r.value.length < 2 ^ 32 - 1) :
    deserializeRun malloc bo (wireEncode bo rs) (wireEncode bo rs).length
      = .ok { ptr := (wireEncode bo rs).length
              start := rs.map nodeOf
              mallocs := 2 * rs.length
              trace := wireTrace 0 rs } := by
  have h := deserializeLoop_wireEncode malloc bo hm rs [] ((wireEncode bo rs).length + 1)
    ⟨0, [], 0, []⟩ rfl (Nat.lt_succ_of_le (length_le_wireEncode_length bo rs)) hv
  simpa [deserializeRun] using h

/-! ## The loop on an arbitrary buffer -/

theorem loopBody_ok {malloc : Nat → Bool} {bo : ByteOrder} {buf : List Byte}
    {s s1 : LoopState} (h : loopBody malloc bo buf s = .ok s1) :
    ∃ keyBytes sizeBytes payload,
      memRead buf s.ptr 8 = some keyBytes ∧ memRead buf (s.ptr + 8) 4 = some sizeBytes ∧
      memRead buf (s.ptr + 12) (load bo sizeBytes) = some payload ∧
      load bo sizeBytes + 1 ≤ valRequest (load bo sizeBytes) ∧
      malloc s.mallocs = true ∧ malloc (s.mallocs + 1) = true ∧
      s1 = { ptr := s.ptr + 12 + load bo sizeBytes
             start := s.start ++
               [⟨toLong (load bo keyBytes), load bo sizeBytes, payload ++ [0]⟩]
             mallocs := s.mallocs + 2
             trace := s.trace ++ [.read s.ptr 8, .read (s.ptr + 8) 4,
               .alloc (valRequest (load bo sizeBytes)),
               .read (s.ptr + 12) (load bo sizeBytes)] } := by
  unfold loopBody at h
  split at h
  · rename_i hm0
    split at h
    · exact absurd h (by simp)
    · rename_i keyBytes hk
      split at h
      · exact absurd h (by simp)
      · rename_i sizeBytes hs
        simp only at h
        split at h
        · rename_i hm1
          split at h
          · exact absurd h (by simp)
          · rename_i payload hpl
            split at h
            · rename_i hreq
              injection h with h
              exact ⟨keyBytes, sizeBytes, payload, hk, hs, hpl, hreq, hm0, hm1, h.symm⟩
            · exact absurd h (by simp)
        · exact absurd h (by simp)
  · exact absurd h (by simp)

/-- A completed iteration appends one node, advances the cursor by the
bytes that node accounts for, and stays inside the memory object. -/
theorem loopBody_ok_node {malloc : Nat → Bool} {bo : ByteOrder} {buf : List Byte}
    {s s1 : LoopState} (h : loopBody malloc bo buf s = .ok s1) :
    ∃ n, s1.start = s.start ++ [n] ∧ s1.ptr = s.ptr + consumed n ∧ s1.ptr ≤ buf.length := by
  obtain ⟨kb, sb, pl, _, _, hpl, _, _, _, rfl⟩ := loopBody_ok h
  refine ⟨_, rfl, ?_, ?_⟩
  · simp only [consumed]; omega
  · have := (memRead_some hpl).1
    simp only; omega

theorem deserializeLoop_ok {malloc : Nat → Bool} {bo : ByteOrder} {buf : List Byte}
    {buffer_size : Nat} (fuel : Nat) :
    ∀ {s s1 : LoopState}, deserializeLoop malloc bo buf buffer_size fuel s = .ok s1 →
      ∃ ns, s1.start = s.start ++ ns ∧ s1.ptr = s.ptr + (ns.map consumed).sum ∧
        buffer_size ≤ s1.ptr ∧ (ns = [] ∨ s1.ptr ≤ buf.length) := by
  induction fuel with
  | zero => intro s s1 h; exact absurd h (by simp [deserializeLoop])
  | succ f ih =>
    intro s s1 h
    rw [deserializeLoop] at h
    split at h
    · split at h
      · exact absurd h (by simp)
      · rename_i s2 hb
        obtain ⟨n, hn1, hn2, hn3⟩ := loopBody_ok_node hb
        obtain ⟨ns, h1, h2, h3, h4⟩ := ih h
        refine ⟨n :: ns, ?_, ?_, h3, Or.inr ?_⟩
        · rw [h1, hn1]; simp
        · rw [h2, hn2]; simp [Nat.add_assoc]
        · rcases h4 with h4 | h4
          · subst h4
            simp only [List.map_nil, List.sum_nil, Nat.add_zero] at h2
            omega
          · exact h4
    · rename_i hge
      injection h with h
      subst h
      exact ⟨[], by simp, by simp, by simpa using hge, Or.inl rfl⟩

theorem loopBody_ne_fuelExhausted (malloc : Nat → Bool) (bo : ByteOrder) (buf : List Byte)
    (s : LoopState) : loopBody malloc bo buf s ≠ .error .fuelExhausted := by
  intro h
  unfold loopBody at h
  split at h
  · split at h
    · exact absurd h (by simp)
    · split at h
      · exact absurd h (by simp)
      · simp only at h
        split at h
        · split at h
          · exact absurd h (by simp)
          · split at h
            · exact absurd h (by simp)
            · exact absurd h (by simp)
        · exact absurd h (by simp)
  · exact absurd h (by simp)

/-- The iteration bound is never reached: a loop entered with
`buffer_size < ptr + fuel` ends by the loop test or by a fault of the code. -/
theorem deserializeLoop_ne_fuelExhausted (malloc : Nat → Bool) (bo : ByteOrder)
    (buf : List Byte) (buffer_size : Nat) (fuel : Nat) :
    ∀ s : LoopState, 1 ≤ fuel → buffer_size + 1 ≤ s.ptr + fuel →
      deserializeLoop malloc bo buf buffer_size fuel s ≠ .error .fuelExhausted := by
  induction fuel with
  | zero => intro s h; omega
  | succ f ih =>
    intro s _ hb
    rw [deserializeLoop]
    split
    · rename_i hlt
      split
      · rename_i e he
        intro h
        injection h with h
        subst h
        exact loopBody_ne_fuelExhausted _ _ _ _ he
      · rename_i s1 hs1
        obtain ⟨n, _, hn, _⟩ := loopBody_ok_node hs1
        simp only [consumed] at hn
        exact ih s1 (by omega) (by omega)
    · simp

theorem deserializeRun_ne_fuelExhausted (malloc : Nat → Bool) (bo : ByteOrder)
    (buf : List Byte) (buffer_size : Nat) :
    deserializeRun malloc bo buf buffer_size ≠ .error .fuelExhausted :=
  deserializeLoop_ne_fuelExhausted malloc bo buf buffer_size (buffer_size + 1) ⟨0, [], 0, []⟩
    (by omega) (by simp)

/-! ## `lookup` and `delete`: lemmas -/

theorem lookup_of_absent {L : List KVPAIR} {k : Int} (h : ∀ r ∈ L, r.key ≠ k) :
    lookup L k = [] := by
  induction L with
  | nil => rfl
  | cons n next ih =>
    have hn : n.key ≠ k := h n (List.mem_cons_self _ _)
    simp only [lookup, if_neg hn]
    exact ih (fun r hr => h r (List.mem_cons_of_mem _ hr))

theorem lookup_append {before : List KVPAIR} {k : Int} (h : ∀ r ∈ before, r.key ≠ k)
    (L : List KVPAIR) : lookup (before ++ L) k = lookup L k := by
  induction before with
  | nil => rfl
  | cons n next ih =>
    have hn : n.key ≠ k := h n (List.mem_cons_self _ _)
    simp only [List.cons_append, lookup, if_neg hn]
    exact ih (fun r hr => h r (List.mem_cons_of_mem _ hr))

theorem lookup_first {before : List KVPAIR} {k : Int} (h : ∀ r ∈ before, r.key ≠ k)
    (n : KVPAIR) (next : List KVPAIR) (hn : n.key = k) :
    lookup (before ++ n :: next) k = n :: next := by
  rw [lookup_append h]
  simp only [lookup, if_pos hn]

theorem delete_of_absent {L : List KVPAIR} {k : Int} (h : ∀ r ∈ L, r.key ≠ k) :
    delete L k = (0, L) := by
  induction L with
  | nil => rfl
  | cons n next ih =>
    have hn : n.key ≠ k := h n (List.mem_cons_self _ _)
    simp only [delete, if_neg hn, ih (fun r hr => h r (List.mem_cons_of_mem _ hr))]

theorem delete_first {before : List KVPAIR} {k : Int} (h : ∀ r ∈ before, r.key ≠ k)
    (n : KVPAIR) (next : List KVPAIR) (hn : n.key = k) :
    delete (before ++ n :: next) k = (1, before ++ next) := by
  induction before with
  | nil => simp only [List.nil_append, delete, if_pos hn]
  | cons m rest ih =>
    have hm : m.key ≠ k := h m (List.mem_cons_self _ _)
    have hrest := ih (fun r hr => h r (List.mem_cons_of_mem _ hr))
    rw [List.cons_append, delete, if_neg hm, hrest]
    rfl

/-- A list that holds the key splits at the first node that carries it. -/
theorem split_at_first {L : List KVPAIR} {k : Int} (h : ∃ r ∈ L, r.key = k) :
    ∃ before n next, L = before ++ n :: next ∧ n.key = k ∧ ∀ r ∈ before, r.key ≠ k := by
  induction L with
  | nil => obtain ⟨r, hr, _⟩ := h; cases hr
  | cons m rest ih =>
    by_cases hm : m.key = k
    · exact ⟨[], m, rest, rfl, hm, fun r hr => by cases hr⟩
    · obtain ⟨r, hr, hk⟩ := h
      have hrest : ∃ r ∈ rest, r.key = k := by
        rcases List.mem_cons.mp hr with rfl | hr
        · exact absurd hk hm
        · exact ⟨r, hr, hk⟩
      obtain ⟨before, n, next, rfl, hn, hb⟩ := ih hrest
      refine ⟨m :: before, n, next, rfl, hn, ?_⟩
      intro x hx
      rcases List.mem_cons.mp hx with rfl | hx
      · exact hm
      · exact hb x hx

theorem countP_key_eq_zero {L : List KVPAIR} {k : Int} :
    L.countP (fun r => decide (r.key = k)) = 0 ↔ ∀ r ∈ L, r.key ≠ k := by
  simp [List.countP_eq_zero]

theorem exists_of_countP_pos {L : List KVPAIR} {k : Int}
    (h : 0 < L.countP (fun r => decide (r.key = k))) : ∃ r ∈ L, r.key = k := by
  obtain ⟨r, hr, hk⟩ := List.countP_pos_iff.mp h
  exact ⟨r, hr, by simpa using hk⟩

theorem countP_split {before next : List KVPAIR} {n : KVPAIR} {k : Int}
    (hb : ∀ r ∈ before, r.key ≠ k) (hn : n.key = k) :
    (before ++ n :: next).countP (fun r => decide (r.key = k))
      = next.countP (fun r => decide (r.key = k)) + 1 := by
  rw [List.countP_append, countP_key_eq_zero.mpr hb, List.countP_cons_of_pos]
  · omega
  · simpa using hn

theorem filter_of_absent {L : List KVPAIR} {k : Int} (h : ∀ r ∈ L, r.key ≠ k) :
    L.filter (fun r => decide (r.key ≠ k)) = L := by
  rw [List.filter_eq_self]
  intro r hr
  simpa using h r hr

/-! ## Consequences for well-formed buffers -/

/-- Round trip on records whose size plus one fits in 32 bits, under an
allocator that never fails. -/
theorem deserialize_wireEncode (malloc : Nat → Bool) (bo : ByteOrder)
    (hm : ∀ i, malloc i = true) (rs : List Record)
    (hv : ∀ r ∈ rs, -2 ^ 63 ≤ r.key ∧ r.key < 2 ^ 63 ∧ r.value.length < 2 ^ 32 - 1) :
    deserialize malloc bo (wireEncode bo rs) (wireEncode bo rs).length = .ok (rs.map nodeOf) := by
  simp only [deserialize, deserializeRun_wireEncode malloc bo hm rs hv]

theorem wireTrace_bounds (bo : ByteOrder) (rs : List Record) :
    ∀ p, ∀ e ∈ wireTrace p rs,
      (∀ q, e = .test q → q ≤ p + (wireEncode bo rs).length) ∧
      (∀ off len, e = .read off len → off + len ≤ p + (wireEncode bo rs).length) := by
  induction rs with
  | nil =>
    intro p e he
    simp only [wireTrace, List.mem_singleton] at he
    subst he
    exact ⟨fun q hq => (by injection hq with hq; omega), fun off len hq => (by cases hq)⟩
  | cons r rs ih =>
    intro p e he
    have hlen : (wireEncode bo (r :: rs)).length
        = 12 + r.value.length + (wireEncode bo rs).length := by
      simp only [wireEncode_cons, List.length_append, encodeRecord_length]
    simp only [wireTrace, List.mem_append, List.mem_cons, List.mem_singleton,
      List.not_mem_nil, or_false] at he
    rw [hlen]
    rcases he with (rfl | rfl | rfl | rfl | rfl) | he
    · exact ⟨fun q hq => (by injection hq with hq; omega), fun off len hq => (by cases hq)⟩
    · exact ⟨fun q hq => (by cases hq),
        fun off len hq => by injection hq with h1 h2; omega⟩
    · exact ⟨fun q hq => (by cases hq),
        fun off len hq => by injection hq with h1 h2; omega⟩
    · exact ⟨fun q hq => (by cases hq), fun off len hq => by cases hq⟩
    · exact ⟨fun q hq => (by cases hq),
        fun off len hq => by injection hq with h1 h2; omega⟩
    · obtain ⟨h1, h2⟩ := ih (p + 12 + r.value.length) e he
      exact ⟨fun q hq => (by have := h1 q hq; omega),
        fun off len hq => by have := h2 off len hq; omega⟩

/-- Read safety on well-formed buffers whose sizes plus one fit in 32 bits,
under an allocator that never fails: the loop exits with the cursor at the
end of the buffer, no loop test sees a cursor beyond it and no read leaves
it. -/
theorem deserializeRun_wireEncode_safe (malloc : Nat → Bool) (bo : ByteOrder)
    (hm : ∀ i, malloc i = true) (rs : List Record)
    (hv : ∀ r ∈ rs, -2 ^ 63 ≤ r.key ∧ r.key < 2 ^ 63 ∧ r.value.length < 2 ^ 32 - 1) :
    ∃ s, deserializeRun malloc bo (wireEncode bo rs) (wireEncode bo rs).length = .ok s ∧
      s.ptr = (wireEncode bo rs).length ∧
      (∀ q, Event.test q ∈ s.trace → q ≤ (wireEncode bo rs).length) ∧
      (∀ off len, Event.read off len ∈ s.trace → off + len ≤ (wireEncode bo rs).length) := by
  refine ⟨_, deserializeRun_wireEncode malloc bo hm rs hv, rfl, ?_, ?_⟩
  · intro q hq
    simpa using (wireTrace_bounds bo rs 0 _ hq).1 q rfl
  · intro off len hq
    simpa using (wireTrace_bounds bo rs 0 _ hq).2 off len rfl

/-! ## The largest size -/

theorem maxRecord_length : maxRecord.value.length = 2 ^ 32 - 1 :=
  List.length_replicate _ _

/-- No run over a buffer whose first record has a value of `2 ^ 32 - 1`
bytes reaches the loop exit. -/
theorem deserializeLoop_max_first (malloc : Nat → Bool) (bo : ByteOrder) (r : Record)
    (rs : List Record) (hsz : r.value.length = 2 ^ 32 - 1) (fuel : Nat) (s s1 : LoopState)
    (hp : s.ptr = 0) :
    deserializeLoop malloc bo (wireEncode bo (r :: rs)) (wireEncode bo (r :: rs)).length fuel s
      ≠ .ok s1 := by
  intro h
  cases fuel with
  | zero => simp [deserializeLoop] at h
  | succ f =>
    have hlt : s.ptr < (wireEncode bo (r :: rs)).length := by
      simp only [wireEncode_cons, List.length_append, encodeRecord_length]
      omega
    rw [deserializeLoop, if_pos hlt] at h
    split at h
    · exact absurd h (by simp)
    · rename_i s2 hb
      obtain ⟨kb, sb, pl, _, hs, _, hreq, _⟩ := loopBody_ok hb
      have hr := (header_reads bo [] (wireEncode bo rs) r 0 rfl).2.1
      simp only [List.nil_append, ← wireEncode_cons] at hr
      simp only [hp] at hs
      rw [hr] at hs
      injection hs with hs
      subst hs
      have hsize : load bo (store bo 4 r.value.length) = 2 ^ 32 - 1 := by
        rw [load_store, hsz]; decide
      rw [hsize, valRequest_max] at hreq
      exact absurd hreq (by decide)

theorem deserializeLoop_max_fault (malloc : Nat → Bool) (bo : ByteOrder)
    (hm : ∀ i, malloc i = true) (r : Record) (rs : List Record)
    (hsz : r.value.length = 2 ^ 32 - 1) (fuel : Nat) (s : LoopState) (hp : s.ptr = 0) :
    deserializeLoop malloc bo (wireEncode bo (r :: rs)) (wireEncode bo (r :: rs)).length
      (fuel + 1) s = .error (.writeOutOfBounds 0 (2 ^ 32)) := by
  have hlt : s.ptr < (wireEncode bo (r :: rs)).length := by
    simp only [wireEncode_cons, List.length_append, encodeRecord_length]
    omega
  have hb := loopBody_encodeRecord_max malloc bo [] (wireEncode bo rs) r
    { s with trace := s.trace ++ [.test s.ptr] } (hm _) (hm _) hp hsz
  simp only [List.nil_append, ← wireEncode_cons] at hb
  rw [deserializeLoop, if_pos hlt, hb]

/-! ## What a returned list says about the buffer -/

theorem loopBody_decoded {malloc : Nat → Bool} {bo : ByteOrder} {buf : List Byte}
    {s s1 : LoopState} (h : loopBody malloc bo buf s = .ok s1) :
    ∃ n, s1.start = s.start ++ [n] ∧ s1.ptr = s.ptr + 12 + n.size ∧
      s.ptr + 12 + n.size ≤ buf.length ∧
      n.key = toLong (load bo ((buf.drop s.ptr).take 8)) ∧
      n.size = load bo ((buf.drop (s.ptr + 8)).take 4) ∧
      n.val = (buf.drop (s.ptr + 12)).take n.size ++ [0] := by
  obtain ⟨kb, sb, pl, hk, hs, hpl, _, _, _, rfl⟩ := loopBody_ok h
  obtain ⟨_, hk2⟩ := memRead_some hk
  obtain ⟨_, hs2⟩ := memRead_some hs
  obtain ⟨hb, hpl2⟩ := memRead_some hpl
  refine ⟨_, rfl, rfl, ?_, ?_, ?_, ?_⟩
  · simpa [Nat.add_assoc] using hb
  · simp only [hk2]
  · simp only [hs2]
  · simp only [hpl2, hs2]

theorem deserializeLoop_decoded {malloc : Nat → Bool} {bo : ByteOrder} {buf : List Byte}
    {buffer_size : Nat} (fuel : Nat) :
    ∀ {s s1 : LoopState}, deserializeLoop malloc bo buf buffer_size fuel s = .ok s1 →
      ∃ ns, s1.start = s.start ++ ns ∧ DecodedAt bo buf s.ptr ns ∧
        s1.ptr = s.ptr + (ns.map consumed).sum ∧
        buffer_size ≤ s1.ptr ∧ (ns = [] ∨ s1.ptr ≤ buf.length) := by
  induction fuel with
  | zero => intro s s1 h; exact absurd h (by simp [deserializeLoop])
  | succ f ih =>
    intro s s1 h
    rw [deserializeLoop] at h
    split at h
    · split at h
      · exact absurd h (by simp)
      · rename_i s2 hb
        obtain ⟨n, hn1, hn2, hn3, hn4, hn5, hn6⟩ := loopBody_decoded hb
        obtain ⟨ns, h1, h2, h3, h4, h5⟩ := ih h
        simp only at hn1 hn2 hn3 hn4 hn5 hn6
        refine ⟨n :: ns, ?_, ⟨hn3, hn4, hn5, hn6, ?_⟩, ?_, h4, Or.inr ?_⟩
        · rw [h1, hn1]; simp
        · rw [← hn2]; exact h2
        · rw [h3, hn2]; simp [consumed]; omega
        · rcases h5 with h5 | h5
          · subst h5
            simp only [List.map_nil, List.sum_nil, Nat.add_zero] at h3
            omega
          · exact h5
    · rename_i hge
      injection h with h
      subst h
      exact ⟨[], by simp, trivial, by simp, by simpa using hge, Or.inl rfl⟩

theorem decodedAt_append {bo : ByteOrder} {buf : List Byte} (before : List KVPAIR) :
    ∀ {p : Nat} {after : List KVPAIR}, DecodedAt bo buf p (before ++ after) →
      DecodedAt bo buf (p + (before.map consumed).sum) after := by
  induction before with
  | nil => intro p after h; simpa using h
  | cons m rest ih =>
    intro p after h
    obtain ⟨_, _, _, _, h5⟩ := h
    have := ih h5
    simpa [consumed, Nat.add_assoc, Nat.add_comm, Nat.add_left_comm] using this

theorem encodeNode_decoded {bo : ByteOrder} {buf : List Byte} {p : Nat} {n : KVPAIR}
    (hb : p + 12 + n.size ≤ buf.length)
    (hk : n.key = toLong (load bo ((buf.drop p).take 8)))
    (hs : n.size = load bo ((buf.drop (p + 8)).take 4))
    (hv : n.val = (buf.drop (p + 12)).take n.size ++ [0]) :
    encodeNode bo n = (buf.drop p).take 8 ++ (buf.drop (p + 8)).take 4
      ++ (buf.drop (p + 12)).take n.size := by
  have hk8 : ((buf.drop p).take 8).length = 8 := by simp; omega
  have hs4 : ((buf.drop (p + 8)).take 4).length = 4 := by simp; omega
  have hvl : ((buf.drop (p + 12)).take n.size).length = n.size := by simp; omega
  have hu : load bo ((buf.drop p).take 8) < 2 ^ 64 := by
    have := load_lt bo ((buf.drop p).take 8)
    rw [hk8] at this
    exact this
  have h1 : store bo 8 (n.key % 2 ^ 64).toNat = (buf.drop p).take 8 := by
    rw [hk, toLong_mod _ hu]
    exact store_load bo 8 _ hk8
  have h2 : store bo 4 n.size = (buf.drop (p + 8)).take 4 := by
    conv_lhs => rw [hs]
    exact store_load bo 4 _ hs4
  have h3 : n.val.take n.size = (buf.drop (p + 12)).take n.size := by
    conv_lhs => rw [hv]
    exact List.take_left' hvl
  simp only [encodeNode, h1, h2, h3]

theorem decodedAt_reencode {bo : ByteOrder} {buf : List Byte} (ns : List KVPAIR) :
    ∀ {p : Nat}, DecodedAt bo buf p ns →
      reencode bo ns = (buf.drop p).take ((ns.map consumed).sum) := by
  induction ns with
  | nil => intro p _; simp [reencode]
  | cons n ns ih =>
    intro p h
    obtain ⟨hb, hk, hs, hv, hrest⟩ := h
    have hsum : ((n :: ns).map consumed).sum = 8 + (4 + (n.size + (ns.map consumed).sum)) := by
      simp only [List.map_cons, List.sum_cons, consumed]; omega
    rw [reencode, encodeNode_decoded hb hk hs hv, ih hrest, hsum, List.take_add, List.take_add,
      List.take_add]
    simp [List.drop_drop, Nat.add_assoc]

theorem deserialize_ok_decodedAt {malloc : Nat → Bool} {bo : ByteOrder} {buf : List Byte}
    {buffer_size : Nat} {L : List KVPAIR}
    (h : deserialize malloc bo buf buffer_size = .ok L) : DecodedAt bo buf 0 L := by
  simp only [deserialize, deserializeRun] at h
  split at h
  · exact absurd h (by simp)
  · rename_i s hs
    injection h with h
    obtain ⟨ns, h1, h2, _⟩ := deserializeLoop_decoded _ hs
    simp only [List.nil_append] at h1
    rw [← h, h1]
    exact h2

theorem decodedAt_wireEncode {bo : ByteOrder} {buf : List Byte} (ns : List KVPAIR) :
    ∀ {p : Nat}, DecodedAt bo buf p ns →
      reencode bo ns = wireEncode bo (ns.map recordOf) ∧
      ∀ r ∈ ns.map recordOf, -2 ^ 63 ≤ r.key ∧ r.key < 2 ^ 63 ∧ r.value.length < 2 ^ 32 := by
  induction ns with
  | nil => intro p _; exact ⟨rfl, fun r hr => by cases hr⟩
  | cons n ns ih =>
    intro p h
    obtain ⟨hb, hk, hs, hv, hrest⟩ := h
    obtain ⟨ih1, ih2⟩ := ih hrest
    have hk8 : ((buf.drop p).take 8).length = 8 := by simp; omega
    have hs4 : ((buf.drop (p + 8)).take 4).length = 4 := by simp; omega
    have hvl : (n.val.take n.size).length = n.size := by
      have : n.val.length = n.size + 1 := by rw [hv]; simp; omega
      simp; omega
    have hu : load bo ((buf.drop p).take 8) < 2 ^ 64 := by
      have := load_lt bo ((buf.drop p).take 8)
      rw [hk8] at this
      exact this
    have hsz : n.size < 2 ^ 32 := by
      have := load_lt bo ((buf.drop (p + 8)).take 4)
      rw [hs4, ← hs] at this
      exact this
    constructor
    · simp only [reencode, List.map_cons, wireEncode, ih1, encodeNode, encodeRecord, recordOf,
        hvl]
    · intro r hr
      rcases List.mem_cons.mp hr with rfl | hr
      · obtain ⟨h1, h2⟩ := toLong_range _ hu
        exact ⟨by simp only [recordOf, hk]; exact h1, by simp only [recordOf, hk]; exact h2,
          by simp only [recordOf, hvl]; exact hsz⟩
      · exact ih2 r hr

/-! ## Termination: the iteration bound -/

/-- A run that ends within `fuel` loop tests ends the same way under any
larger bound. -/
theorem deserializeLoop_fuel_mono (malloc : Nat → Bool) (bo : ByteOrder) (buf : List Byte)
    (buffer_size : Nat) (fuel : Nat) :
    ∀ (s : LoopState) (d : Nat),
      deserializeLoop malloc bo buf buffer_size fuel s ≠ .error .fuelExhausted →
      deserializeLoop malloc bo buf buffer_size (fuel + d) s
        = deserializeLoop malloc bo buf buffer_size fuel s := by
  induction fuel with
  | zero => intro s d h; exact absurd rfl h
  | succ f ih =>
    intro s d h
    have hfd : f + 1 + d = (f + d) + 1 := by omega
    rw [hfd]
    rw [deserializeLoop] at h ⊢
    rw [deserializeLoop]
    split
    · rename_i hlt
      rw [if_pos hlt] at h
      split
      · rfl
      · rename_i s1 hs1
        rw [hs1] at h
        exact ih s1 d h
    · rfl

/-- The loop started with `buffer_size ≤ ptr + 12 * (fuel - 1)` ends within
`fuel` loop tests. -/
theorem deserializeLoop_within (malloc : Nat → Bool) (bo : ByteOrder) (buf : List Byte)
    (buffer_size : Nat) (fuel : Nat) :
    ∀ s : LoopState, 1 ≤ fuel → buffer_size ≤ s.ptr + 12 * (fuel - 1) →
      deserializeLoop malloc bo buf buffer_size fuel s ≠ .error .fuelExhausted := by
  induction fuel with
  | zero => intro s h; omega
  | succ f ih =>
    intro s _ hb
    rw [deserializeLoop]
    split
    · rename_i hlt
      split
      · rename_i e he
        intro h
        injection h with h
        subst h
        exact loopBody_ne_fuelExhausted _ _ _ _ he
      · rename_i s1 hs1
        obtain ⟨n, _, hn, _⟩ := loopBody_ok_node hs1
        simp only [consumed] at hn
        simp only [Nat.add_sub_cancel] at hb
        exact ih s1 (by omega) (by omega)
    · simp

/-- Every completed loop test but the last appends one node. -/
theorem deserializeLoop_ok_length (malloc : Nat → Bool) (bo : ByteOrder) (buf : List Byte)
    (buffer_size : Nat) (fuel : Nat) :
    ∀ {s s1 : LoopState}, deserializeLoop malloc bo buf buffer_size fuel s = .ok s1 →
      s1.start.length + 1 ≤ s.start.length + fuel := by
  induction fuel with
  | zero => intro s s1 h; exact absurd h (by simp [deserializeLoop])
  | succ f ih =>
    intro s s1 h
    rw [deserializeLoop] at h
    split at h
    · split at h
      · exact absurd h (by simp)
      · rename_i s2 hb
        obtain ⟨n, hn, _, _⟩ := loopBody_ok_node hb
        have := ih h
        rw [hn] at this
        simp at this
        omega
    · injection h with h
      subst h
      simp

theorem twelve_mul_length_le_consumed (L : List KVPAIR) :
    12 * L.length ≤ (L.map consumed).sum := by
  induction L with
  | nil => simp
  | cons n ns ih => simp only [List.length_cons, List.map_cons, List.sum_cons, consumed]; omega

/-! ## Well-formed buffers: the outcome in all cases -/

theorem wireEncode_append (bo : ByteOrder) (rs1 rs2 : List Record) :
    wireEncode bo (rs1 ++ rs2) = wireEncode bo rs1 ++ wireEncode bo rs2 := by
  induction rs1 with
  | nil => rfl
  | cons r rs ih => simp only [List.cons_append, wireEncode_cons, ih, List.append_assoc]

/-- The loop decodes the records `rs` whose sizes plus one fit in 32 bits
and goes on with what follows them in the buffer. -/
theorem deserializeLoop_wireEncode_then (malloc : Nat → Bool) (bo : ByteOrder)
    (hm : ∀ i, malloc i = true) (rs : List Record) (post : List Byte) :
    ∀ (pre : List Byte) (fuel : Nat) (s : LoopState) (buf : List Byte),
      buf = pre ++ wireEncode bo rs ++ post → s.ptr = pre.length →
      (∀ r ∈ rs, -2 ^ 63 ≤ r.key ∧ r.key < 2 ^ 63 ∧ r.value.length < 2 ^ 32 - 1) →
      ∃ s1 : LoopState, s1.ptr = (pre ++ wireEncode bo rs).length ∧
        s1.start = s.start ++ rs.map nodeOf ∧
        deserializeLoop malloc bo buf buf.length (fuel + rs.length) s
          = deserializeLoop malloc bo buf buf.length fuel s1 := by
  induction rs with
  | nil =>
    intro pre fuel s buf _ hp _
    exact ⟨s, by simp [wireEncode, hp], by simp, rfl⟩
  | cons r rs ih =>
    intro pre fuel s buf hbuf hp hv
    obtain ⟨hlo, hhi, hsz⟩ := hv r (List.mem_cons_self _ _)
    have hbuf2 : buf = pre ++ encodeRecord bo r ++ (wireEncode bo rs ++ post) := by
      rw [hbuf]; simp [wireEncode_cons]
    have hlt : s.ptr < buf.length := by
      rw [hbuf2]
      simp only [List.length_append, encodeRecord_length]
      omega
    have hbody0 := loopBody_encodeRecord malloc bo pre (wireEncode bo rs ++ post) r
      { s with trace := s.trace ++ [.test s.ptr] } (hm _) (hm _) hp hlo hhi hsz
    rw [← hbuf2] at hbody0
    obtain ⟨s2, ⟨hs2p, hs2s⟩, hbody⟩ : ∃ s2 : LoopState,
        (s2.ptr = s.ptr + 12 + r.value.length ∧ s2.start = s.start ++ [nodeOf r]) ∧
        loopBody malloc bo buf { s with trace := s.trace ++ [.test s.ptr] } = .ok s2 :=
      ⟨_, ⟨rfl, rfl⟩, hbody0⟩
    obtain ⟨s1, h1, h2, h3⟩ := ih (pre ++ encodeRecord bo r) fuel s2 buf
      (by rw [hbuf2]; simp)
      (by rw [hs2p]; simp only [List.length_append, encodeRecord_length, hp]; omega)
      (fun x hx => hv x (List.mem_cons_of_mem _ hx))
    refine ⟨s1, ?_, ?_, ?_⟩
    · rw [h1]; simp [wireEncode_cons]
    · rw [h2, hs2s]; simp
    · have hf : fuel + (r :: rs).length = (fuel + rs.length) + 1 := by simp; omega
      rw [hf, deserializeLoop, if_pos hlt, hbody]
      exact h3

/-- The first element that fails a property splits the list. -/
theorem split_at_first_failure {P : Record → Prop} {rs : List Record}
    (h : ¬ ∀ r ∈ rs, P r) :
    ∃ good r rest, rs = good ++ r :: rest ∧ (∀ x ∈ good, P x) ∧ ¬ P r := by
  induction rs with
  | nil => exact absurd (fun r hr => by cases hr) h
  | cons a rs ih =>
    by_cases ha : P a
    · have hrs : ¬ ∀ r ∈ rs, P r := by
        intro hall
        apply h
        intro r hr
        rcases List.mem_cons.mp hr with rfl | hr
        · exact ha
        · exact hall r hr
      obtain ⟨good, r, rest, rfl, hg, hr⟩ := ih hrs
      refine ⟨a :: good, r, rest, rfl, ?_, hr⟩
      intro x hx
      rcases List.mem_cons.mp hx with rfl | hx
      · exact ha
      · exact hg x hx
    · exact ⟨[], a, rs, rfl, fun x hx => (by cases hx), ha⟩

/-- What `deserialize` does on every well-formed buffer when no allocation
fails: it returns the nodes of the records, unless some value has
`2 ^ 32 - 1` bytes, in which case the copy of the first such value leaves
its block. -/
theorem deserialize_wireEncode_outcome (malloc : Nat → Bool) (bo : ByteOrder)
    (hm : ∀ i, malloc i = true) (rs : List Record)
    (hv : ∀ r ∈ rs, -2 ^ 63 ≤ r.key ∧ r.key < 2 ^ 63 ∧ r.value.length < 2 ^ 32) :
    deserialize malloc bo (wireEncode bo rs) (wireEncode bo rs).length =
      if ∀ r ∈ rs, r.value.length < 2 ^ 32 - 1 then .ok (rs.map nodeOf)
      else .error (.writeOutOfBounds 0 (2 ^ 32)) := by
  by_cases hall : ∀ r ∈ rs, r.value.length < 2 ^ 32 - 1
  · rw [if_pos hall]
    exact deserialize_wireEncode malloc bo hm rs
      (fun r hr => ⟨(hv r hr).1, (hv r hr).2.1, hall r hr⟩)
  · rw [if_neg hall]
    obtain ⟨good, r, rest, rfl, hg, hr⟩ := split_at_first_failure hall
    have hrsz : r.value.length = 2 ^ 32 - 1 := by
      have := (hv r (by simp)).2.2
      omega
    have hgood : ∀ x ∈ good, -2 ^ 63 ≤ x.key ∧ x.key < 2 ^ 63 ∧ x.value.length < 2 ^ 32 - 1 :=
      fun x hx => ⟨(hv x (by simp [hx])).1, (hv x (by simp [hx])).2.1, hg x hx⟩
    have hbuf : wireEncode bo (good ++ r :: rest)
        = [] ++ wireEncode bo good ++ (encodeRecord bo r ++ wireEncode bo rest) := by
      simp [wireEncode_append, wireEncode_cons]
    have hlen : good.length ≤ (wireEncode bo (good ++ r :: rest)).length := by
      have := length_le_wireEncode_length bo (good ++ r :: rest)
      simp only [List.length_append] at this
      omega
    obtain ⟨s1, h1, _, h3⟩ := deserializeLoop_wireEncode_then malloc bo hm good
      (encodeRecord bo r ++ wireEncode bo rest) []
      ((wireEncode bo (good ++ r :: rest)).length - good.length + 1) ⟨0, [], 0, []⟩
      (wireEncode bo (good ++ r :: rest)) hbuf rfl hgood
    have hfuel : (wireEncode bo (good ++ r :: rest)).length + 1
        = (wireEncode bo (good ++ r :: rest)).length - good.length + 1 + good.length := by
      omega
    have hbuf2 : wireEncode bo (good ++ r :: rest)
        = wireEncode bo good ++ encodeRecord bo r ++ wireEncode bo rest := by
      simp [wireEncode_append, wireEncode_cons]
    have hlt : s1.ptr < (wireEncode bo (good ++ r :: rest)).length := by
      rw [h1, hbuf2]
      simp only [List.nil_append, List.length_append, encodeRecord_length]
      omega
    have hb := loopBody_encodeRecord_max malloc bo (wireEncode bo good) (wireEncode bo rest) r
      { s1 with trace := s1.trace ++ [.test s1.ptr] } (hm _) (hm _) (by simpa using h1) hrsz
    rw [← hbuf2] at hb
    simp only [deserialize, deserializeRun]
    rw [hfuel, h3, deserializeLoop, if_pos hlt, hb]

/-! ## Well-formed buffers followed by arbitrary memory -/

/-- On the records `rs`, whatever the allocator does and whatever memory
`post` follows them, a run that reaches the loop exit at the end of the
records has appended exactly their nodes. -/
theorem deserializeLoop_wireEncode_ok (malloc : Nat → Bool) (bo : ByteOrder)
    (rs : List Record) (post : List Byte) :
    ∀ (pre : List Byte) (fuel : Nat) (s s1 : LoopState) (buf : List Byte) (N : Nat),
      buf = pre ++ wireEncode bo rs ++ post → N = (pre ++ wireEncode bo rs).length →
      s.ptr = pre.length →
      (∀ r ∈ rs, -2 ^ 63 ≤ r.key ∧ r.key < 2 ^ 63 ∧ r.value.length < 2 ^ 32) →
      deserializeLoop malloc bo buf N fuel s = .ok s1 →
      s1.start = s.start ++ rs.map nodeOf ∧ s1.ptr = N := by
  induction rs with
  | nil =>
    intro pre fuel s s1 buf N _ hN hp _ h
    cases fuel with
    | zero => exact absurd h (by simp [deserializeLoop])
    | succ f =>
      have hge : ¬ s.ptr < N := by rw [hN, hp]; simp [wireEncode]
      rw [deserializeLoop, if_neg hge] at h
      injection h with h
      subst h
      exact ⟨by simp, by rw [hN, hp]; simp [wireEncode]⟩
  | cons r rs ih =>
    intro pre fuel s s1 buf N hbuf hN hp hv h
    obtain ⟨hlo, hhi, hsz⟩ := hv r (List.mem_cons_self _ _)
    cases fuel with
    | zero => exact absurd h (by simp [deserializeLoop])
    | succ f =>
      have hbuf2 : buf = pre ++ encodeRecord bo r ++ (wireEncode bo rs ++ post) := by
        rw [hbuf]; simp [wireEncode_cons]
      have hlt : s.ptr < N := by
        rw [hN, hp]
        simp only [wireEncode_cons, List.length_append, encodeRecord_length]
        omega
      rw [deserializeLoop, if_pos hlt] at h
      split at h
      · exact absurd h (by simp)
      · rename_i s2 hb
        obtain ⟨kb, sb, pl, hk, hs, hpl, _, _, _, hs2⟩ := loopBody_ok hb
        obtain ⟨h8, h4, hval⟩ := header_reads bo pre (wireEncode bo rs ++ post) r s.ptr hp
        rw [← hbuf2] at h8 h4 hval
        simp only at hk hs hpl
        rw [h8] at hk
        rw [h4] at hs
        injection hk with hk
        injection hs with hs
        subst hk hs
        have hsize : load bo (store bo 4 r.value.length) = r.value.length := by
          rw [load_store]; exact Nat.mod_eq_of_lt (by norm_num; omega)
        have hkey : toLong (load bo (store bo 8 (r.key % 2 ^ 64).toNat)) = r.key := by
          rw [load_store]; exact toLong_store r.key hlo hhi
        rw [hsize, hval] at hpl
        injection hpl with hpl
        subst hpl
        rw [hsize, hkey] at hs2
        have hstart : s2.start = s.start ++ [nodeOf r] := by rw [hs2]; rfl
        have hptr : s2.ptr = s.ptr + 12 + r.value.length := by rw [hs2]
        obtain ⟨h1, h2⟩ := ih (pre ++ encodeRecord bo r) f s2 s1 buf N
          (by rw [hbuf2]; simp) (by rw [hN]; simp [wireEncode_cons])
          (by rw [hptr]; simp only [List.length_append, encodeRecord_length, hp]; omega)
          (fun x hx => hv x (List.mem_cons_of_mem _ hx)) h
        exact ⟨by rw [h1, hstart]; simp, h2⟩

/-- A list `deserialize` returns for a well-formed buffer `b`, passed with
its length and followed in memory by any bytes `tail`, is the list of the
nodes of the records `b` is made of. -/
theorem deserialize_wellFormed_ok {malloc : Nat → Bool} {bo : ByteOrder} {b tail : List Byte}
    {L : List KVPAIR} (hw : WellFormed bo b)
    (h : deserialize malloc bo (b ++ tail) b.length = .ok L) :
    ∃ rs : List Record,
      (∀ r ∈ rs, -2 ^ 63 ≤ r.key ∧ r.key < 2 ^ 63 ∧ r.value.length < 2 ^ 32) ∧
      b = wireEncode bo rs ∧ L = rs.map nodeOf := by
  obtain ⟨rs, hv, rfl⟩ := hw
  refine ⟨rs, hv, rfl, ?_⟩
  simp only [deserialize, deserializeRun] at h
  split at h
  · exact absurd h (by simp)
  · rename_i s1 hs1
    injection h with h
    obtain ⟨h1, _⟩ := deserializeLoop_wireEncode_ok malloc bo rs tail [] _ _ s1
      (wireEncode bo rs ++ tail) (wireEncode bo rs).length (by simp) (by simp) rfl hv hs1
    rw [← h, h1]
    simp

theorem encodeNode_nodeOf (bo : ByteOrder) (r : Record) :
    encodeNode bo (nodeOf r) = encodeRecord bo r := by
  simp only [encodeNode, nodeOf, encodeRecord, List.take_left' rfl]

theorem reencode_nodeOf (bo : ByteOrder) (rs : List Record) :
    reencode bo (rs.map nodeOf) = wireEncode bo rs := by
  induction rs with
  | nil => rfl
  | cons r rs ih => simp only [List.map_cons, reencode, wireEncode, encodeNode_nodeOf, ih]

/-! ## Buffers that are not well formed -/

theorem truncatedBuf_not_wellFormed : ¬ WellFormed .little truncatedBuf := by
  intro hw
  have h : deserialize mallocOk .little (truncatedBuf ++ [0]) truncatedBuf.length
      = .ok slackList := by decide
  obtain ⟨rs, _, hb, hL⟩ := deserialize_wellFormed_ok hw h
  have hlen := wireEncode_length .little rs
  rw [← hb, ← hL] at hlen
  exact absurd hlen (by decide)

/-- In a run that returns a list, the last node appended was read in an
iteration that started with the cursor inside the buffer. -/
theorem deserializeLoop_last_start {malloc : Nat → Bool} {bo : ByteOrder} {buf : List Byte}
    {buffer_size : Nat} (fuel : Nat) :
    ∀ {s s1 : LoopState}, deserializeLoop malloc bo buf buffer_size fuel s = .ok s1 →
      ∀ (init : List KVPAIR) (last : KVPAIR), s1.start = s.start ++ (init ++ [last]) →
        s.ptr + (init.map consumed).sum < buffer_size := by
  induction fuel with
  | zero => intro s s1 h; exact absurd h (by simp [deserializeLoop])
  | succ f ih =>
    intro s s1 h init last hst
    rw [deserializeLoop] at h
    split at h
    · rename_i hlt
      split at h
      · exact absurd h (by simp)
      · rename_i s2 hb
        obtain ⟨n, hn1, hn2, _⟩ := loopBody_ok_node hb
        simp only at hn1 hn2
        obtain ⟨ns, hns, _⟩ := deserializeLoop_ok f h
        rw [hns, hn1, List.append_assoc] at hst
        have hcat : [n] ++ ns = init ++ [last] := List.append_cancel_left hst
        cases init with
        | nil => simpa using hlt
        | cons a rest =>
          simp only [List.singleton_append, List.cons_append, List.cons.injEq] at hcat
          obtain ⟨ha, hrest⟩ := hcat
          simp only [List.nil_append] at hrest
          have := ih h rest last (by rw [hns, hrest])
          rw [hn2] at this
          simp only [List.map_cons, List.sum_cons, ← ha]
          omega
    · injection h with h
      subst h
      have hlen := congrArg List.length hst
      simp at hlen

/-- A returned list that accounts for exactly `buffer_size` bytes shows
that the first `buffer_size` bytes of memory are a well-formed buffer. -/
theorem wellFormed_of_exact {malloc : Nat → Bool} {bo : ByteOrder} {buf : List Byte}
    {buffer_size : Nat} {L : List KVPAIR}
    (h : deserialize malloc bo buf buffer_size = .ok L)
    (hsum : (L.map consumed).sum = buffer_size) : WellFormed bo (buf.take buffer_size) := by
  have hd := deserialize_ok_decodedAt h
  obtain ⟨h1, h2⟩ := decodedAt_wireEncode L hd
  have h3 := decodedAt_reencode L hd
  rw [hsum, List.drop_zero] at h3
  exact ⟨L.map recordOf, h2, by rw [← h1, h3]⟩

/-! ## The claims of the specification -/

/-- C1, at the failing input: the buffer that encodes the single record
`maxRecord` (key 0, a value of `2 ^ 32 - 1` bytes), passed with its exact
length, is not decoded back to that record.  Under an allocator that never
fails the request `size + 1` wraps to 0 and the copy of the value leaves the
allocated block; under no allocator does `deserialize` return a list. -/
theorem deserialize_maxRecord_not_roundtrip (bo : ByteOrder) :
    deserialize mallocOk bo (wireEncode bo [maxRecord]) (wireEncode bo [maxRecord]).length
        = .error (.writeOutOfBounds 0 (2 ^ 32)) ∧
    ∀ (malloc : Nat → Bool) (L : List KVPAIR),
      deserialize malloc bo (wireEncode bo [maxRecord]) (wireEncode bo [maxRecord]).length
        ≠ .ok L := by
  constructor
  · have hf := deserializeLoop_max_fault mallocOk bo (fun _ => rfl) maxRecord []
      maxRecord_length (wireEncode bo [maxRecord]).length ⟨0, [], 0, []⟩ rfl
    simp only [deserialize, deserializeRun, hf]
  · intro malloc L h
    simp only [deserialize, deserializeRun] at h
    split at h
    · exact absurd h (by simp)
    · rename_i s hs
      exact deserializeLoop_max_first malloc bo maxRecord [] maxRecord_length _ _ s rfl hs

/-- C2: `lookup` returns `NULL` exactly when no node of the list has the
key, and otherwise the pointer to the first node, front to back, whose key
equals the argument (the node together with the chain after it). -/
theorem lookup_returns_first (L : List KVPAIR) (k : Int) :
    (lookup L k = [] ↔ ∀ r ∈ L, r.key ≠ k) ∧
    (∀ n next, lookup L k = n :: next ↔
      ∃ before, L = before ++ n :: next ∧ n.key = k ∧ ∀ r ∈ before, r.key ≠ k) := by
  by_cases h : ∃ r ∈ L, r.key = k
  · obtain ⟨before, m, rest, rfl, hm, hb⟩ := split_at_first h
    have hl := lookup_first hb m rest hm
    refine ⟨⟨fun h0 => ?_, fun h0 => ?_⟩, fun n next => ⟨fun h1 => ?_, ?_⟩⟩
    · rw [hl] at h0; cases h0
    · exact absurd hm (h0 m (by simp))
    · rw [hl] at h1
      injection h1 with h1 h2
      subst h1 h2
      exact ⟨before, rfl, hm, hb⟩
    · rintro ⟨b2, heq, hn, hb2⟩
      rw [heq]
      exact lookup_first hb2 n next hn
  · have habs : ∀ r ∈ L, r.key ≠ k := fun r hr hk => h ⟨r, hr, hk⟩
    have hl := lookup_of_absent habs
    refine ⟨⟨fun _ => habs, fun _ => hl⟩, fun n next => ⟨fun h1 => ?_, ?_⟩⟩
    · rw [hl] at h1; cases h1
    · rintro ⟨b2, heq, hn, _⟩
      exact absurd hn (habs n (by rw [heq]; simp))

/-- C3: `delete` returns 1 if and only if some node has the key, its
return value is 0 otherwise, and when it returns 1 the new list is the old
one with exactly its first node of that key unlinked: the nodes before and
after it are kept in order and the length drops by one. -/
theorem delete_removes_first (L : List KVPAIR) (k : Int) :
    ((delete L k).1 = 1 ↔ ∃ r ∈ L, r.key = k) ∧
    ((delete L k).1 = 0 ↔ ∀ r ∈ L, r.key ≠ k) ∧
    ((delete L k).1 = 1 →
      ∃ before n next, L = before ++ n :: next ∧ n.key = k ∧ (∀ r ∈ before, r.key ≠ k) ∧
        (delete L k).2 = before ++ next ∧ (delete L k).2.length + 1 = L.length) := by
  by_cases h : ∃ r ∈ L, r.key = k
  · obtain ⟨before, m, rest, rfl, hm, hb⟩ := split_at_first h
    have hd := delete_first hb m rest hm
    refine ⟨⟨fun _ => h, fun _ => by rw [hd]⟩, ⟨fun h0 => ?_, fun h0 => ?_⟩, fun _ => ?_⟩
    · rw [hd] at h0; exact absurd h0 (by simp)
    · exact absurd hm (h0 m (by simp))
    · exact ⟨before, m, rest, rfl, hm, hb, by rw [hd], by rw [hd]; simp; omega⟩
  · have habs : ∀ r ∈ L, r.key ≠ k := fun r hr hk => h ⟨r, hr, hk⟩
    have hd := delete_of_absent habs
    refine ⟨⟨fun h1 => ?_, fun h1 => absurd h1 h⟩, ⟨fun _ => habs, fun _ => by rw [hd]⟩,
      fun h1 => ?_⟩
    · rw [hd] at h1; exact absurd h1 (by simp)
    · rw [hd] at h1; exact absurd h1 (by simp)

/-- C4: when no node has the key, `delete` returns 0 and the list is the
one it was: same head, same nodes in the same order with the same keys,
sizes and values. -/
theorem delete_absent_unchanged (L : List KVPAIR) (k : Int) (h : ∀ r ∈ L, r.key ≠ k) :
    delete L k = (0, L) :=
  delete_of_absent h

theorem delete_absent_unchanged_witness :
    (∀ r ∈ scenarioList, r.key ≠ 7) ∧ delete scenarioList 7 = (0, scenarioList) :=
  ⟨by decide, delete_absent_unchanged scenarioList 7 (by decide)⟩

/-- C5: when exactly one node has the key, `delete` returns 1, the new list
has one node less, it consists of all the other nodes in their original
order, and a following `lookup` of the key returns `NULL`. -/
theorem delete_unique_key (L : List KVPAIR) (k : Int)
    (h : L.countP (fun r => decide (r.key = k)) = 1) :
    (delete L k).1 = 1 ∧ (delete L k).2.length = L.length - 1 ∧
    (delete L k).2 = L.filter (fun r => decide (r.key ≠ k)) ∧
    lookup (delete L k).2 k = [] := by
  obtain ⟨before, m, rest, rfl, hm, hb⟩ :=
    split_at_first (exists_of_countP_pos (by rw [h]; exact Nat.one_pos))
  have hrest : ∀ r ∈ rest, r.key ≠ k := by
    rw [countP_split hb hm] at h
    exact countP_key_eq_zero.mp (by omega)
  have hboth : ∀ r ∈ before ++ rest, r.key ≠ k := by
    intro r hr
    rcases List.mem_append.mp hr with hr | hr
    · exact hb r hr
    · exact hrest r hr
  rw [delete_first hb m rest hm]
  refine ⟨rfl, by simp, ?_, lookup_of_absent hboth⟩
  have hmf : decide (m.key ≠ k) = false := by simpa using hm
  rw [List.filter_append, List.filter_cons_of_neg (by simp [hmf]), filter_of_absent hb,
    filter_of_absent hrest]

theorem delete_unique_key_witness :
    scenarioList.countP (fun r => decide (r.key = 1)) = 1 ∧
    ((delete scenarioList 1).1 = 1 ∧
      (delete scenarioList 1).2.length = scenarioList.length - 1 ∧
      (delete scenarioList 1).2 = scenarioList.filter (fun r => decide (r.key ≠ 1)) ∧
      lookup (delete scenarioList 1).2 1 = []) :=
  ⟨by decide, delete_unique_key scenarioList 1 (by decide)⟩

/-- C6: when at least two nodes have the key, the list splits around its
first node `a` and its second node `b` of that key; one call of `delete`
returns 1 and unlinks `a` only, and `lookup` on the new list returns the
pointer to `b`, followed by the nodes that followed it before. -/
theorem delete_duplicate_key (L : List KVPAIR) (k : Int)
    (h : 2 ≤ L.countP (fun r => decide (r.key = k))) :
    ∃ before a mid b after,
      L = before ++ a :: (mid ++ b :: after) ∧ a.key = k ∧ b.key = k ∧
      (∀ r ∈ before, r.key ≠ k) ∧ (∀ r ∈ mid, r.key ≠ k) ∧
      delete L k = (1, before ++ (mid ++ b :: after)) ∧
      lookup (delete L k).2 k = b :: after := by
  obtain ⟨before, a, rest, rfl, ha, hb⟩ :=
    split_at_first (exists_of_countP_pos (Nat.lt_of_lt_of_le Nat.zero_lt_two h))
  have hrest : 0 < rest.countP (fun r => decide (r.key = k)) := by
    rw [countP_split hb ha] at h
    omega
  obtain ⟨mid, b, after, rfl, hbk, hmid⟩ := split_at_first (exists_of_countP_pos hrest)
  refine ⟨before, a, mid, b, after, rfl, ha, hbk, hb, hmid, delete_first hb a _ ha, ?_⟩
  rw [delete_first hb a _ ha]
  simp only
  rw [lookup_append hb]
  exact lookup_first hmid b after hbk

theorem delete_duplicate_key_witness :
    2 ≤ duplicateList.countP (fun r => decide (r.key = 5)) ∧
    ∃ before a mid b after,
      duplicateList = before ++ a :: (mid ++ b :: after) ∧ a.key = 5 ∧ b.key = 5 ∧
      (∀ r ∈ before, r.key ≠ 5) ∧ (∀ r ∈ mid, r.key ≠ 5) ∧
      delete duplicateList 5 = (1, before ++ (mid ++ b :: after)) ∧
      lookup (delete duplicateList 5).2 5 = b :: after :=
  ⟨by decide, delete_duplicate_key duplicateList 5 (by decide)⟩

/-- C7: when the first node has the key, `delete` returns 1 and the head
the caller sees afterwards is the former second node, the new list being
the tail of the old one; for a list of that single node the new head is
`NULL`. -/
theorem delete_head (n : KVPAIR) (next : List KVPAIR) (k : Int) (h : n.key = k) :
    delete (n :: next) k = (1, next) ∧ delete [n] k = (1, []) := by
  simp only [delete, if_pos h, and_self]

theorem delete_head_witness :
    (⟨1, 2, [97, 98, 0]⟩ : KVPAIR).key = 1 ∧
    (delete (⟨1, 2, [97, 98, 0]⟩ :: [⟨2, 3, [120, 121, 122, 0]⟩]) 1
        = (1, [⟨2, 3, [120, 121, 122, 0]⟩]) ∧
      delete [⟨1, 2, [97, 98, 0]⟩] 1 = (1, [])) :=
  ⟨rfl, delete_head ⟨1, 2, [97, 98, 0]⟩ [⟨2, 3, [120, 121, 122, 0]⟩] 1 rfl⟩

/-- C8, counterexample: called on `scenarioBuf` with length 15, a length
that ends inside the key of the second record, `deserialize` reads on in
the memory after the first 15 bytes and returns both records, which account
for 29 bytes, not 15. -/
theorem consumed_exceeds_supplied_length :
    deserialize mallocOk .little scenarioBuf 15 = .ok scenarioList ∧
    (scenarioList.map consumed).sum ≠ 15 := by
  decide

/-- C8, amended: when the buffer `b` is well formed and `deserialize`,
called with the length of `b`, returns a list, the bytes its nodes account
for, 8 + 4 + `size` each, add up to that length, whatever the allocator
does and whatever memory `tail` follows the buffer. -/
theorem deserialize_consumes_buffer (malloc : Nat → Bool) (bo : ByteOrder)
    (b tail : List Byte) (L : List KVPAIR) (hw : WellFormed bo b)
    (h : deserialize malloc bo (b ++ tail) b.length = .ok L) :
    (L.map consumed).sum = b.length := by
  obtain ⟨rs, _, hb, hL⟩ := deserialize_wellFormed_ok hw h
  rw [hL, hb, wireEncode_length]

theorem deserialize_consumes_buffer_witness :
    (WellFormed .little scenarioBuf ∧
      deserialize mallocOk .little (scenarioBuf ++ [7, 7]) scenarioBuf.length
        = .ok scenarioList) ∧
    (scenarioList.map consumed).sum = scenarioBuf.length :=
  ⟨⟨⟨[⟨1, [97, 98]⟩, ⟨2, [120, 121, 122]⟩], by decide, by decide⟩, by decide⟩,
    deserialize_consumes_buffer mallocOk .little scenarioBuf [7, 7] scenarioList
      ⟨[⟨1, [97, 98]⟩, ⟨2, [120, 121, 122]⟩], by decide, by decide⟩ (by decide)⟩

/-- C9, at the failing input: on the well-formed buffer that encodes the
single record `maxRecord`, passed with its exact length, no run of
`deserialize` reaches the loop exit, whatever the allocator does; in
particular the loop does not exit with the cursor at the end of the
buffer. -/
theorem deserializeRun_maxRecord_no_exit (malloc : Nat → Bool) (bo : ByteOrder)
    (s : LoopState) :
    deserializeRun malloc bo (wireEncode bo [maxRecord]) (wireEncode bo [maxRecord]).length
      ≠ .ok s :=
  deserializeLoop_max_first malloc bo maxRecord [] maxRecord_length _ _ s rfl

/-- C10: on a buffer of length 0 `deserialize` returns the empty list and no
fault, whatever the allocator; on the empty list `lookup` returns `NULL`
and `delete` returns 0 for every key and leaves the list empty. -/
theorem empty_buffer_and_list (malloc : Nat → Bool) (bo : ByteOrder) (buf : List Byte)
    (k : Int) :
    deserialize malloc bo buf 0 = .ok [] ∧ lookup [] k = [] ∧ delete [] k = (0, []) := by
  refine ⟨?_, rfl, rfl⟩
  simp [deserialize, deserializeRun, deserializeLoop]

/-- C12: in a list `deserialize` returns, the node that follows the nodes
`before` was read at the offset those nodes account for; its `size` is the
value of the 4 size bytes there and does not count the terminator, and its
value block is exactly the `size` bytes that follow the header, in order,
then one zero byte at index `size`. -/
theorem deserialize_value_terminated (malloc : Nat → Bool) (bo : ByteOrder) (buf : List Byte)
    (buffer_size : Nat) (L before after : List KVPAIR) (n : KVPAIR)
    (h : deserialize malloc bo buf buffer_size = .ok L) (hL : L = before ++ n :: after) :
    (before.map consumed).sum + 12 + n.size ≤ buf.length ∧
    n.size = load bo ((buf.drop ((before.map consumed).sum + 8)).take 4) ∧
    n.val = (buf.drop ((before.map consumed).sum + 12)).take n.size ++ [0] ∧
    n.val.take n.size = (buf.drop ((before.map consumed).sum + 12)).take n.size ∧
    n.val.length = n.size + 1 ∧ n.val[n.size]? = some 0 := by
  subst hL
  have hd := decodedAt_append before (deserialize_ok_decodedAt h)
  simp only [Nat.zero_add] at hd
  obtain ⟨hb, _, hs, hv, _⟩ := hd
  have hvl : ((buf.drop ((before.map consumed).sum + 12)).take n.size).length = n.size := by
    simp; omega
  refine ⟨hb, hs, hv, ?_, ?_, ?_⟩
  · conv_lhs => rw [hv]
    exact List.take_left' hvl
  · rw [hv, List.length_append, hvl]; rfl
  · rw [hv, List.getElem?_append_right (by omega), hvl]; simp

theorem deserialize_value_terminated_witness :
    (deserialize mallocOk .little scenarioBuf scenarioBuf.length = .ok scenarioList ∧
      scenarioList = [⟨1, 2, [97, 98, 0]⟩] ++ ⟨2, 3, [120, 121, 122, 0]⟩ :: []) ∧
    (14 + 12 + 3 ≤ scenarioBuf.length ∧
      3 = load .little ((scenarioBuf.drop (14 + 8)).take 4) ∧
      ([120, 121, 122, 0] : List Byte) = (scenarioBuf.drop (14 + 12)).take 3 ++ [0] ∧
      ([120, 121, 122, 0] : List Byte).take 3 = (scenarioBuf.drop (14 + 12)).take 3 ∧
      ([120, 121, 122, 0] : List Byte).length = 3 + 1 ∧
      ([120, 121, 122, 0] : List Byte)[3]? = some 0) :=
  ⟨⟨by decide, by decide⟩,
    deserialize_value_terminated mallocOk .little scenarioBuf scenarioBuf.length scenarioList
      [⟨1, 2, [97, 98, 0]⟩] [] ⟨2, 3, [120, 121, 122, 0]⟩ (by decide) (by decide)⟩

/-- C16, counterexample: called on `scenarioBuf` with length 28, one byte
short of the second record, `deserialize` returns the same list as with
length 29; re-encoding that list gives 29 bytes, not the 28-byte buffer,
and two different buffers have the same list. -/
theorem reencode_differs_from_supplied_buffer :
    deserialize mallocOk .little scenarioBuf 28 = .ok scenarioList ∧
    reencode .little scenarioList ≠ scenarioBuf.take 28 ∧
    deserialize mallocOk .little scenarioBuf 29 = .ok scenarioList ∧
    scenarioBuf.take 28 ≠ scenarioBuf.take 29 := by
  decide

/-- C16, amended: when the buffer `b` is well formed and `deserialize`,
called with the length of `b`, returns a list, re-encoding the nodes in
order (8 key bytes, 4 size bytes and the `size` value bytes each) gives back
`b` byte for byte, whatever memory follows the buffer; hence two
well-formed buffers for which `deserialize` returns the same list are
equal. -/
theorem deserialize_reencode (malloc : Nat → Bool) (bo : ByteOrder) (b tail : List Byte)
    (L : List KVPAIR) (hw : WellFormed bo b)
    (h : deserialize malloc bo (b ++ tail) b.length = .ok L) :
    reencode bo L = b ∧
    ∀ (malloc2 : Nat → Bool) (b2 tail2 : List Byte), WellFormed bo b2 →
      deserialize malloc2 bo (b2 ++ tail2) b2.length = .ok L → b2 = b := by
  obtain ⟨rs, _, hb, hL⟩ := deserialize_wellFormed_ok hw h
  have hre : reencode bo L = b := by rw [hL, hb, reencode_nodeOf]
  refine ⟨hre, fun malloc2 b2 tail2 hw2 h2 => ?_⟩
  obtain ⟨rs2, _, hb2, hL2⟩ := deserialize_wellFormed_ok hw2 h2
  rw [← hre, hb2, hL2, reencode_nodeOf]

theorem deserialize_reencode_witness :
    (WellFormed .little scenarioBuf ∧
      deserialize mallocOk .little (scenarioBuf ++ [7, 7]) scenarioBuf.length
        = .ok scenarioList) ∧
    (reencode .little scenarioList = scenarioBuf ∧
      ∀ (malloc2 : Nat → Bool) (b2 tail2 : List Byte), WellFormed .little b2 →
        deserialize malloc2 .little (b2 ++ tail2) b2.length = .ok scenarioList →
        b2 = scenarioBuf) :=
  ⟨⟨⟨[⟨1, [97, 98]⟩, ⟨2, [120, 121, 122]⟩], by decide, by decide⟩, by decide⟩,
    deserialize_reencode mallocOk .little scenarioBuf [7, 7] scenarioList
      ⟨[⟨1, [97, 98]⟩, ⟨2, [120, 121, 122]⟩], by decide, by decide⟩ (by decide)⟩

/-- C11, at the failing input: on `scenarioBuf`, when the third `malloc`
(the node of the second record) or the fourth one (its value) returns
`NULL`, `deserialize` returns `NULL` while the node and the value of the
first record, already decoded, are still allocated and no longer
reachable: they have not been released. -/
theorem deserialize_allocation_failure_leaks :
    deserialize (fun i => decide (i < 2)) .little scenarioBuf scenarioBuf.length
      = .error (.allocationFailure [⟨1, 2, [97, 98, 0]⟩]) ∧
    deserialize (fun i => decide (i < 3)) .little scenarioBuf scenarioBuf.length
      = .error (.allocationFailure [⟨1, 2, [97, 98, 0]⟩]) := by
  decide

/-- C13, at the failing input: for the encoded size `2 ^ 32 - 1` the request
`size + 1`, computed in `unsigned int`, is 0 and not `2 ^ 32`, so the copy
of the payload and the terminator do not fit the block and the loop body
faults on the record `maxRecord`; for every smaller size the request is
`size + 1`. -/
theorem valRequest_wraps_at_max (bo : ByteOrder) :
    valRequest (2 ^ 32 - 1) = 0 ∧ ¬ (2 ^ 32 - 1 + 1 ≤ valRequest (2 ^ 32 - 1)) ∧
    loopBody mallocOk bo (encodeRecord bo maxRecord) ⟨0, [], 0, []⟩
      = .error (.writeOutOfBounds 0 (2 ^ 32)) ∧
    ∀ s, s < 2 ^ 32 - 1 → valRequest s = s + 1 := by
  refine ⟨valRequest_max, by rw [valRequest_max]; decide, ?_, fun s hs => valRequest_of_lt hs⟩
  have h := loopBody_encodeRecord_max mallocOk bo [] [] maxRecord ⟨0, [], 0, []⟩ rfl rfl rfl
    maxRecord_length
  simpa using h

/-- C18: for a key `k2` different from the deleted key `k`, `lookup` finds
the same node (same key, size and value) after `delete` as before it, and
returns `NULL` after it exactly when it returned `NULL` before. -/
theorem lookup_after_delete_other (L : List KVPAIR) (k k2 : Int) (h : k2 ≠ k) :
    (lookup (delete L k).2 k2).head? = (lookup L k2).head? ∧
    (lookup (delete L k).2 k2 = [] ↔ lookup L k2 = []) := by
  induction L with
  | nil => exact ⟨rfl, Iff.rfl⟩
  | cons n next ih =>
    by_cases hk : n.key = k
    · have hk2 : n.key ≠ k2 := fun h2 => h (h2.symm.trans hk)
      simp only [delete, if_pos hk, lookup, if_neg hk2, and_self]
    · by_cases hk2 : n.key = k2
      · simp [delete, if_neg hk, lookup, if_pos hk2]
      · simp only [delete, if_neg hk, lookup, if_neg hk2]
        exact ih

theorem lookup_after_delete_other_witness :
    (6 : Int) ≠ 5 ∧
    ((lookup (delete duplicateList 5).2 6).head? = (lookup duplicateList 6).head? ∧
      (lookup (delete duplicateList 5).2 6 = [] ↔ lookup duplicateList 6 = [])) :=
  ⟨by decide, lookup_after_delete_other duplicateList 5 6 (by decide)⟩

/-- C15, counterexample: called on `scenarioBuf` with length 20,
`deserialize` returns two records, more than 20 / 12 = 1. -/
theorem records_exceed_floor_bound :
    deserialize mallocOk .little scenarioBuf 20 = .ok scenarioList ∧
    ¬ scenarioList.length ≤ 20 / 12 := by
  decide

/-- C15, amended: `deserialize` terminates on every buffer and length.
Each completed loop iteration advances the cursor by at least 12 bytes; the
run ends, by the loop test or by a fault of the code, within
`⌈buffer_size / 12⌉` iterations and one final loop test, and is the same run
under every larger bound; a returned list has at most `⌈buffer_size / 12⌉`
nodes, and at most `buffer_length / 12` nodes when the buffer is well
formed, whatever memory follows it. -/
theorem deserialize_terminates (malloc : Nat → Bool) (bo : ByteOrder) (buf : List Byte) :
    (∀ s s1, loopBody malloc bo buf s = .ok s1 → s.ptr + 12 ≤ s1.ptr) ∧
    (∀ buffer_size,
      deserializeRun malloc bo buf buffer_size ≠ .error .fuelExhausted ∧
      (∀ fuel, (buffer_size + 11) / 12 + 1 ≤ fuel →
        deserializeLoop malloc bo buf buffer_size fuel ⟨0, [], 0, []⟩
          = deserializeRun malloc bo buf buffer_size) ∧
      (∀ L, deserialize malloc bo buf buffer_size = .ok L →
        L.length ≤ (buffer_size + 11) / 12)) ∧
    (∀ (b tail : List Byte) (L : List KVPAIR), WellFormed bo b →
      deserialize malloc bo (b ++ tail) b.length = .ok L → L.length ≤ b.length / 12) := by
  have htight : ∀ buffer_size,
      deserializeLoop malloc bo buf buffer_size ((buffer_size + 11) / 12 + 1) ⟨0, [], 0, []⟩
        ≠ .error .fuelExhausted := fun buffer_size =>
    deserializeLoop_within malloc bo buf buffer_size _ ⟨0, [], 0, []⟩ (by omega)
      (by simp only [Nat.add_sub_cancel]; omega)
  have hfuel : ∀ buffer_size fuel, (buffer_size + 11) / 12 + 1 ≤ fuel →
      deserializeLoop malloc bo buf buffer_size fuel ⟨0, [], 0, []⟩
        = deserializeLoop malloc bo buf buffer_size ((buffer_size + 11) / 12 + 1)
            ⟨0, [], 0, []⟩ := by
    intro buffer_size fuel hf
    obtain ⟨d, rfl⟩ : ∃ d, fuel = (buffer_size + 11) / 12 + 1 + d :=
      ⟨fuel - ((buffer_size + 11) / 12 + 1), by omega⟩
    exact deserializeLoop_fuel_mono malloc bo buf buffer_size _ _ d (htight buffer_size)
  have hrun : ∀ buffer_size, deserializeRun malloc bo buf buffer_size
      = deserializeLoop malloc bo buf buffer_size ((buffer_size + 11) / 12 + 1)
          ⟨0, [], 0, []⟩ := fun buffer_size => hfuel buffer_size _ (by omega)
  refine ⟨?_, fun buffer_size => ⟨?_, ?_, ?_⟩, ?_⟩
  · intro s s1 h
    obtain ⟨n, _, hn, _⟩ := loopBody_ok_node h
    simp only [consumed] at hn
    omega
  · rw [hrun]; exact htight buffer_size
  · intro fuel hf
    rw [hrun]; exact hfuel buffer_size fuel hf
  · intro L h
    simp only [deserialize, hrun] at h
    split at h
    · exact absurd h (by simp)
    · rename_i s1 hs1
      injection h with h
      have := deserializeLoop_ok_length malloc bo buf buffer_size _ hs1
      rw [h] at this
      simpa using this
  · intro b tail L hw h
    obtain ⟨rs, _, hb, hL⟩ := deserialize_wellFormed_ok hw h
    have h12 := twelve_mul_length_le_consumed L
    have hsum : (L.map consumed).sum = b.length := by rw [hL, hb, wireEncode_length]
    omega

/-- C14, counterexample: the 28-byte buffer `truncatedBuf` ends before the
three value bytes its second record declares are available; called with
length 28 on memory that continues after it (`slackBuf`), `deserialize`
returns a two-node list: it neither stops nor signals anything. -/
theorem deserialize_returns_list_on_truncated :
    ¬ WellFormed .little (slackBuf.take 28) ∧
    deserialize mallocOk .little slackBuf 28 = .ok slackList :=
  ⟨truncatedBuf_not_wellFormed, by decide⟩

/-- C14, amended: `deserialize` does not detect a buffer that is not a whole
number of records.  When the first `buffer_size` bytes of memory are such a
buffer and it returns a list, the last node of the list was read from a
record that starts inside the buffer and ends beyond it: the nodes before
it account for less than `buffer_size` bytes, the whole list for more, all
of them read from memory. -/
theorem deserialize_malformed (malloc : Nat → Bool) (bo : ByteOrder) (buf : List Byte)
    (buffer_size : Nat) (L : List KVPAIR) (_hsize : buffer_size ≤ buf.length)
    (hbad : ¬ WellFormed bo (buf.take buffer_size))
    (h : deserialize malloc bo buf buffer_size = .ok L) :
    buffer_size < (L.map consumed).sum ∧ (L.map consumed).sum ≤ buf.length ∧
    ∃ init last, L = init ++ [last] ∧ (init.map consumed).sum < buffer_size := by
  have hne : (L.map consumed).sum ≠ buffer_size := fun hsum => hbad (wellFormed_of_exact h hsum)
  have h0 := h
  simp only [deserialize, deserializeRun] at h0
  split at h0
  · exact absurd h0 (by simp)
  · rename_i s1 hs1
    injection h0 with h0
    obtain ⟨ns, h1, _, h3, h4, h5⟩ := deserializeLoop_decoded _ hs1
    simp only [List.nil_append, Nat.zero_add] at h1 h3
    have hL : L = ns := by rw [← h0, h1]
    subst hL
    have hlt : buffer_size < (L.map consumed).sum := by omega
    have hnil : L ≠ [] := by
      intro hnil
      subst hnil
      simp at hlt
    refine ⟨hlt, ?_, ?_⟩
    · rcases h5 with h5 | h5
      · exact absurd h5 hnil
      · omega
    · obtain ⟨init, last, hsplit⟩ : ∃ init last, L = init ++ [last] :=
        ⟨L.dropLast, L.getLast hnil, (List.dropLast_append_getLast hnil).symm⟩
      refine ⟨init, last, hsplit, ?_⟩
      have := deserializeLoop_last_start _ hs1 init last
        (by simp only [List.nil_append]; rw [h1, hsplit])
      simpa using this

theorem deserialize_malformed_witness :
    ((28 : Nat) ≤ slackBuf.length ∧ ¬ WellFormed .little (slackBuf.take 28) ∧
      deserialize mallocOk .little slackBuf 28 = .ok slackList) ∧
    ((28 : Nat) < (slackList.map consumed).sum ∧ (slackList.map consumed).sum ≤ slackBuf.length ∧
      ∃ init last, slackList = init ++ [last] ∧ (init.map consumed).sum < 28) :=
  ⟨⟨by decide, truncatedBuf_not_wellFormed, by decide⟩,
    deserialize_malformed mallocOk .little slackBuf 28 slackList (by decide)
      truncatedBuf_not_wellFormed (by decide)⟩

/-- C17: for well-formed buffers `b1` and `b2`, when no allocation fails,
`deserialize` of `b1 ++ b2` with length `|b1| + |b2|` is the list it returns
for `b1` followed by the list it returns for `b2` (and the fault of the
first of the two decodings that is a fault, when one is). -/
theorem deserialize_append (malloc : Nat → Bool) (bo : ByteOrder) (b1 b2 : List Byte)
    (hm : ∀ i, malloc i = true) (h1 : WellFormed bo b1) (h2 : WellFormed bo b2) :
    deserialize malloc bo (b1 ++ b2) (b1.length + b2.length)
      = followedBy (deserialize malloc bo b1 b1.length) (deserialize malloc bo b2 b2.length) := by
  obtain ⟨rs1, hv1, rfl⟩ := h1
  obtain ⟨rs2, hv2, rfl⟩ := h2
  have hv : ∀ r ∈ rs1 ++ rs2,
      -2 ^ 63 ≤ r.key ∧ r.key < 2 ^ 63 ∧ r.value.length < 2 ^ 32 := by
    intro r hr
    rcases List.mem_append.mp hr with hr | hr
    · exact hv1 r hr
    · exact hv2 r hr
  have hcat := deserialize_wireEncode_outcome malloc bo hm (rs1 ++ rs2) hv
  rw [wireEncode_append, List.length_append] at hcat
  rw [hcat, deserialize_wireEncode_outcome malloc bo hm rs1 hv1,
    deserialize_wireEncode_outcome malloc bo hm rs2 hv2]
  by_cases g1 : ∀ r ∈ rs1, r.value.length < 2 ^ 32 - 1
  · by_cases g2 : ∀ r ∈ rs2, r.value.length < 2 ^ 32 - 1
    · have g : ∀ r ∈ rs1 ++ rs2, r.value.length < 2 ^ 32 - 1 := by
        intro r hr
        rcases List.mem_append.mp hr with hr | hr
        · exact g1 r hr
        · exact g2 r hr
      rw [if_pos g, if_pos g1, if_pos g2]
      simp [followedBy]
    · have g : ¬ ∀ r ∈ rs1 ++ rs2, r.value.length < 2 ^ 32 - 1 :=
        fun g => g2 (fun r hr => g r (List.mem_append_right _ hr))
      rw [if_neg g, if_pos g1, if_neg g2]
      simp [followedBy]
  · have g : ¬ ∀ r ∈ rs1 ++ rs2, r.value.length < 2 ^ 32 - 1 :=
      fun g => g1 (fun r hr => g r (List.mem_append_left _ hr))
    rw [if_neg g, if_neg g1]
    simp [followedBy]

theorem deserialize_append_witness :
    ((∀ i, mallocOk i = true) ∧ WellFormed .little scenarioFirst ∧
      WellFormed .little scenarioSecond) ∧
    deserialize mallocOk .little (scenarioFirst ++ scenarioSecond)
        (scenarioFirst.length + scenarioSecond.length)
      = followedBy (deserialize mallocOk .little scenarioFirst scenarioFirst.length)
          (deserialize mallocOk .little scenarioSecond scenarioSecond.length) :=
  ⟨⟨fun _ => rfl, ⟨[⟨1, [97, 98]⟩], by decide, by decide⟩,
      ⟨[⟨2, [120, 121, 122]⟩], by decide, by decide⟩⟩,
    deserialize_append mallocOk .little scenarioFirst scenarioSecond (fun _ => rfl)
      ⟨[⟨1, [97, 98]⟩], by decide, by decide⟩ ⟨[⟨2, [120, 121, 122]⟩], by decide, by decide⟩⟩

end KVStore
